import Mathlib

/-!
# Verification of the Lue eBook reader's timing, parsing and navigation layers

Shallow embedding of the relevant functions of `lue/timing_calculator.py`,
`lue/content_parser.py`, `lue/audio.py` and `lue/reader.py`.

Modelling conventions:
* Python `float` times are modelled as exact rationals `ℚ`; a Python value
  that may be `None` is modelled as `Option ℚ`.
* Python strings are modelled as `List Char` (wrapped in `String` at the
  few points where it is convenient); the regex character classes `\w`,
  `\s`, `[a-zA-Z0-9]` are modelled over ASCII, which is exact for every
  input appearing in the claims.
* Python scanning loops (`re.sub` passes) are modelled as structurally
  recursive scanners driven by a fuel argument that is initialised to the
  length of the scanned string; every scanner consumes at least one
  character per step, so the fuel never runs out on the initial call.
-/

namespace Lue

/-- ASCII word character, the `\w` class of Python's `re` (over ASCII). -/
def isWordChar (c : Char) : Bool :=
  c.isAlphanum || c = '_'

/-- ASCII whitespace, the `\s` class of Python's `re` (over ASCII). -/
def isSpaceChar (c : Char) : Bool :=
  c = ' ' || c = '\t' || c = '\n' || c = '\r' || c = '\x0b' || c = '\x0c'

/-- The 32 characters of Python's `string.punctuation`. -/
def pyPunctuation : List Char :=
  ['!', '"', '#', '$', '%', '&', '\'', '(', ')', '*', '+', ',', '-', '.',
   '/', ':', ';', '<', '=', '>', '?', '@', '[', '\\', ']', '^', '_', '`',
   '{', '|', '}', '~']

/-- Membership in `string.punctuation`. -/
def isPunct (c : Char) : Bool := pyPunctuation.contains c

/-- Scanner behind `pySplit`; `cur` is the reversed current token. -/
def pySplitGo (cur : List Char) : List Char → List (List Char)
  | [] => if cur.isEmpty then [] else [cur.reverse]
  | c :: t =>
    if isSpaceChar c then
      if cur.isEmpty then pySplitGo [] t else cur.reverse :: pySplitGo [] t
    else pySplitGo (c :: cur) t

/-- Python `str.split()` with no argument: split on runs of whitespace,
returning no empty tokens. -/
def pySplit (s : List Char) : List (List Char) :=
  pySplitGo [] s

/-- Python `str.strip(chars)`: remove leading and trailing characters that
belong to `chars` (here: membership test `p`). -/
def pyStrip (p : Char → Bool) (s : List Char) : List Char :=
  ((s.dropWhile p).reverse.dropWhile p).reverse

/-! ## `lue/timing_calculator.py` -/

/-- `_sanitize_word`: strip all non-alphanumeric characters
(regex `[^a-zA-Z0-9]`) and lowercase the rest. -/
def sanitize_word (w : List Char) : List Char :=
  (w.filter Char.isAlphanum).map Char.toLower

/-- `_get_highlightable_words`: whitespace tokens that stay non-empty after
stripping `string.punctuation` from both ends; the stripped forms are kept. -/
def get_highlightable_words (text : List Char) : List (List Char) :=
  (pySplit text).filterMap fun token =>
    let cleaned := pyStrip isPunct token
    if cleaned.isEmpty then none else some cleaned

/-- A raw word timing `(word, start_time, end_time)`; times may be `None`. -/
abbrev Entry : Type := List Char × Option ℚ × Option ℚ

/-- One entry of the first pass of `adjust_word_timings_for_continuity`:
fix backwards timings (swapping, or a 0.1 s window) and enforce the 50 ms
minimum duration; entries holding a `None` pass through untouched. -/
def cleanEntry : Entry → Entry
  | (w, some s, some en) =>
    let p := if en < s then (if 0 < s then (s, s + 1/10) else (en, s + 1/10)) else (s, en)
    let e2 := if p.2 - p.1 < 1/20 then p.1 + 1/20 else p.2
    (w, some p.1, some e2)
  | e => e

/-- First pass of `adjust_word_timings_for_continuity`. -/
def cleanPass (wt : List Entry) : List Entry :=
  wt.map cleanEntry

/-- Second pass of `adjust_word_timings_for_continuity`: for every entry but
the last, extend the end to the next start when there is a gap, and move it
to the midpoint when there is an overlap. -/
def continuityPass : List Entry → List Entry
  | [] => []
  | [e] => [e]
  | (w, some s, some en) :: next :: rest =>
    let adjEnd :=
      match next with
      | (_, some ns, _) =>
        if en < ns then ns else if ns < en then (en + ns) / 2 else en
      | _ => en
    (w, some s, some adjEnd) :: continuityPass (next :: rest)
  | e :: next :: rest => e :: continuityPass (next :: rest)

/-- `adjust_word_timings_for_continuity`. -/
def adjust_word_timings_for_continuity (wt : List Entry) : List Entry :=
  if wt.length ≤ 1 then wt else continuityPass (cleanPass wt)

/-- Python `max` over the end times of a timing list: returns the single
element when the list is a singleton, the maximum when all ends are
numbers, and raises (`Except.error`) when two or more items are compared
and at least one is `None`. -/
def maxEndTimes : List (Option ℚ) → Except Unit (Option ℚ)
  | [] => .error ()
  | [x] => .ok x
  | xs =>
    if xs.all (·.isSome) then
      match xs.filterMap id with
      | [] => .error ()
      | y :: ys => .ok (some (ys.foldl max y))
    else .error ()

/-- `calculate_speech_duration` (0.0 on an empty list); propagates the
`TypeError` of a `None`-tainted `max` as `Except.error`. -/
def calculate_speech_duration (wt : List Entry) : Except Unit (Option ℚ) :=
  if wt.isEmpty then .ok (some 0) else maxEndTimes (wt.map fun e => e.2.2)

/-- `estimate_word_timings_from_duration`: uniform word timings from the
highlightable words and the total duration (0.3 s per word when no positive
duration is available). -/
def estimate_word_timings_from_duration (text : List Char) (total : Option ℚ) :
    List Entry :=
  let words := get_highlightable_words text
  if words.isEmpty then []
  else
    let total : ℚ := match total with
      | none => (3/10 : ℚ) * words.length
      | some d => if d ≤ 0 then (3/10 : ℚ) * words.length else d
    let tpw : ℚ := total / (words.length : ℚ)
    words.enum.map fun iw =>
      (iw.2, some ((iw.1 : ℚ) * tpw), some (((iw.1 : ℚ) + 1) * tpw))

/-- Python's substring test `a in b` on strings (contiguous sublist). -/
def strIn (a b : List Char) : Bool := decide (a <:+: b)

/-- `_words_similar`: heuristic similarity used by the fuzzy matcher. -/
def words_similar (w1 w2 : List Char) : Bool :=
  if w1.isEmpty || w2.isEmpty then false
  else
    (decide (3 ≤ w1.length) && decide (3 ≤ w2.length)
      && (strIn w1 w2 || strIn w2 w1)) ||
    (decide (4 ≤ w1.length) && decide (4 ≤ w2.length)
      && decide (w1.take 3 = w2.take 3)
      && decide (w1.length - w2.length ≤ 2) && decide (w2.length - w1.length ≤ 2))

/-- The cascaded match score of `create_word_mapping`:
identical 100, original-in-TTS 80, TTS-in-original 60, similar 40, else 0. -/
def matchScore (o t : List Char) : Nat :=
  if o = t then 100
  else if strIn o t then 80
  else if strIn t o then 60
  else if words_similar o t then 40
  else 0

/-- The look-ahead search of `create_word_mapping` over the index list
`idxs` (Python `range(tts_index, search_range)`), carrying the best
`(index?, score)` found so far, updating on strictly larger scores and
stopping early on a perfect match. -/
def findBestGo (ttsS : List (List Char)) (o : List Char) :
    List Nat → Option Nat × Nat → Option Nat × Nat
  | [], best => best
  | idx :: idxs, (bi, bs) =>
    let tw := (ttsS.get? idx).getD []
    if tw.isEmpty then findBestGo ttsS o idxs (bi, bs)
    else
      let score := matchScore o tw
      if bs < score then
        if score = 100 then (some idx, score)
        else findBestGo ttsS o idxs (some idx, score)
      else findBestGo ttsS o idxs (bi, bs)

/-- The main loop of `create_word_mapping` over the sanitized original
words; `T` is the TTS word count, `ti` the running TTS index and `last`
the last appended mapping entry (`mapping[-1]`). -/
def mappingGo (ttsS : List (List Char)) (T : Nat) :
    List (List Char) → Nat → Option Nat → List Nat
  | [], _, _ => []
  | oS :: rest, ti, last =>
    if T ≤ ti then
      (T - 1) :: mappingGo ttsS T rest ti (some (T - 1))
    else if oS.isEmpty then
      match last with
      | some pm => pm :: mappingGo ttsS T rest ti (some pm)
      | none => 0 :: mappingGo ttsS T rest ti (some 0)
    else
      let stop := min T (ti + 5)
      let best := findBestGo ttsS oS (List.range' ti (stop - ti)) (none, 0)
      match best with
      | (some b, bs) =>
        if bs = 0 then ti :: mappingGo ttsS T rest (ti + 1) (some ti)
        else b :: mappingGo ttsS T rest (if b ≤ ti + 2 then b + 1 else ti) (some b)
      | (none, _) => ti :: mappingGo ttsS T rest (ti + 1) (some ti)

/-- `create_word_mapping`: map each original word index to a TTS timing
index, `none` on empty input; a perfect 1:1 sanitized match short-circuits
to the identity mapping. -/
def create_word_mapping (orig : List (List Char)) (tts : List Entry) :
    Option (List Nat) :=
  if orig.isEmpty || tts.isEmpty then none
  else
    let ttsWords := tts.map (·.1)
    let origS := orig.map sanitize_word
    let ttsS := ttsWords.map sanitize_word
    if orig.length = ttsWords.length ∧ origS = ttsS then
      some (List.range orig.length)
    else
      some (mappingGo ttsS ttsWords.length origS 0 none)

/-- The dictionary returned by `process_tts_timing_data`. -/
structure TimingBundle where
  word_timings : List Entry
  speech_duration : Option ℚ
  total_duration : Option ℚ
  word_mapping : Option (List Nat)
deriving DecidableEq

/-- The `try:` body of `process_tts_timing_data`; the only statement in it
that can raise is the `max` inside `calculate_speech_duration` when a
`None` end time meets a second element, which is surfaced as
`Except.error`. -/
def processBody (text : List Char) (raw : List Entry) (dur : Option ℚ) :
    Except Unit TimingBundle :=
  if raw.isEmpty then
    let dur' : ℚ := dur.getD ((3/10 : ℚ) * (pySplit text).length)
    let wt := estimate_word_timings_from_duration text (some dur')
    .ok { word_timings := wt, speech_duration := some dur',
          total_duration := some dur',
          word_mapping := create_word_mapping (get_highlightable_words text) wt }
  else
    let wt := adjust_word_timings_for_continuity raw
    match calculate_speech_duration wt with
    | .error _ => .error ()
    | .ok sd =>
      .ok { word_timings := wt, speech_duration := sd,
            total_duration := match dur with | some d => some d | none => sd,
            word_mapping := create_word_mapping (get_highlightable_words text) wt }

/-- The `except:` fallback of `process_tts_timing_data`: a uniform
estimate computed from the original text alone. -/
def fallbackBundle (text : List Char) : TimingBundle :=
  let fw := get_highlightable_words text
  let fd : ℚ := (3/10 : ℚ) * fw.length
  let ft := estimate_word_timings_from_duration text (some fd)
  { word_timings := ft, speech_duration := some fd, total_duration := some fd,
    word_mapping := create_word_mapping fw ft }

/-- `process_tts_timing_data`. -/
def process_tts_timing_data (text : List Char) (raw : List Entry)
    (dur : Option ℚ) : TimingBundle :=
  match processBody text raw dur with
  | .ok b => b
  | .error _ => fallbackBundle text

/-! ## Predicates about timing lists -/

/-- Contiguity: every entry's end time equals the next entry's start time. -/
def contiguousB : List Entry → Bool
  | a :: b :: t => decide (a.2.2 = b.2.1) && contiguousB (b :: t)
  | _ => true

/-- A well-formed raw entry: numeric times, `end ≥ start`, duration ≥ 50 ms. -/
def wfTiming (e : Entry) : Bool :=
  match e.2.1, e.2.2 with
  | some s, some en => decide (s ≤ en) && decide ((1:ℚ)/20 ≤ en - s)
  | _, _ => false

/-- Both times of the entry are numbers (not `None`). -/
def numericTiming (e : Entry) : Bool := e.2.1.isSome && e.2.2.isSome

/-- The entry meets or precedes the next one: its end time is at most the
next start time (whenever both are numbers). -/
def meetsNext (a b : Entry) : Bool :=
  match a.2.2, b.2.1 with
  | some ea, some sb => decide (ea ≤ sb)
  | _, _ => true

/-- The repaired list the spec describes for gap-or-meet inputs: each
non-final entry's end is set to the next entry's start, the last entry is
unchanged. -/
def snapEndsSpec : List Entry → List Entry
  | [] => []
  | [e] => [e]
  | (w, s, _) :: next :: rest => (w, s, next.2.1) :: snapEndsSpec (next :: rest)

lemma contiguousB_iff : ∀ l : List Entry,
    contiguousB l = true ↔
    ∀ i, i + 1 < l.length →
      (l[i]?.map fun e => e.2.2) = (l[i + 1]?.map fun e => e.2.1)
  | [] => by
    constructor
    · intro _ i hi; simp at hi
    · intro _; rfl
  | [a] => by
    constructor
    · intro _ i hi
      simp only [List.length_cons, List.length_nil] at hi
      omega
    · intro _; rfl
  | a :: b :: t => by
    have ih := contiguousB_iff (b :: t)
    have hunf : contiguousB (a :: b :: t)
        = (decide (a.2.2 = b.2.1) && contiguousB (b :: t)) := rfl
    rw [hunf, Bool.and_eq_true, decide_eq_true_eq, ih]
    constructor
    · rintro ⟨h0, hrest⟩ i hi
      match i with
      | 0 => simpa using h0
      | i + 1 =>
        have := hrest i (by simp at hi ⊢; omega)
        simpa using this
    · intro h
      refine ⟨by simpa using h 0 (by simp), ?_⟩
      intro i hi
      have := h (i + 1) (by simp at hi ⊢; omega)
      simpa using this

lemma cleanEntry_of_wf (e : Entry) (he : wfTiming e = true) :
    cleanEntry e = e := by
  obtain ⟨w, s?, e?⟩ := e
  match s?, e? with
  | some s, some en =>
    simp only [wfTiming, Bool.and_eq_true, decide_eq_true_eq] at he
    obtain ⟨h1, h2⟩ := he
    have hns : ¬ en < s := not_lt.mpr h1
    show (w, some (if en < s then (if 0 < s then (s, s + 1/10) else (en, s + 1/10)) else (s, en)).1,
      some (if (if en < s then (if 0 < s then (s, s + 1/10) else (en, s + 1/10)) else (s, en)).2
            - (if en < s then (if 0 < s then (s, s + 1/10) else (en, s + 1/10)) else (s, en)).1 < 1/20
        then (if en < s then (if 0 < s then (s, s + 1/10) else (en, s + 1/10)) else (s, en)).1 + 1/20
        else (if en < s then (if 0 < s then (s, s + 1/10) else (en, s + 1/10)) else (s, en)).2))
      = (w, some s, some en)
    rw [if_neg hns]
    have hnd : ¬ ((s, en).2 - (s, en).1 < 1/20) := not_lt.mpr h2
    rw [if_neg hnd]
  | some s, none => simp [wfTiming] at he
  | none, e? => simp [wfTiming] at he

lemma cleanPass_of_wf (wt : List Entry) (h : wt.all wfTiming = true) :
    cleanPass wt = wt := by
  unfold cleanPass
  rw [List.all_eq_true] at h
  calc wt.map cleanEntry = wt.map id := by
        exact List.map_congr_left fun e he => cleanEntry_of_wf e (h e he)
    _ = wt := List.map_id wt

lemma continuityPass_snap : ∀ l : List Entry, l.all wfTiming = true →
    l.Chain' (fun a b => meetsNext a b = true) → continuityPass l = snapEndsSpec l
  | [] => by intro _ _; rfl
  | [a] => by
    intro _ _
    simp [continuityPass, snapEndsSpec]
  | a :: b :: t => by
    intro hw hc
    simp only [List.all_cons, Bool.and_eq_true] at hw
    obtain ⟨ha, hb, ht⟩ := hw
    have hab : meetsNext a b = true := (List.chain'_cons.mp hc).1
    have hrest := (List.chain'_cons.mp hc).2
    have ihres := continuityPass_snap (b :: t) (by simp [hb, ht]) hrest
    obtain ⟨w, s?, e?⟩ := a
    match s?, e? with
    | some s, some en =>
      obtain ⟨w2, s2?, e2?⟩ := b
      match s2?, e2? with
      | some s2, some e2 =>
        have hle : en ≤ s2 := by
          simpa [meetsNext] using hab
        have hsnap : (if en < s2 then s2 else if s2 < en then (en + s2) / 2 else en) = s2 := by
          rcases lt_or_eq_of_le hle with h | h
          · simp [h]
          · simp [h, lt_irrefl]
        calc continuityPass ((w, some s, some en) :: (w2, some s2, some e2) :: t)
            = (w, some s, some (if en < s2 then s2 else if s2 < en then (en + s2) / 2 else en))
              :: continuityPass ((w2, some s2, some e2) :: t) := rfl
          _ = (w, some s, some s2) :: snapEndsSpec ((w2, some s2, some e2) :: t) := by
              rw [hsnap, ihres]
          _ = snapEndsSpec ((w, some s, some en) :: (w2, some s2, some e2) :: t) := rfl
      | some s2, none => simp [wfTiming] at hb
      | none, _ => simp [wfTiming] at hb
    | some s, none => simp [wfTiming] at ha
    | none, _ => simp [wfTiming] at ha

/-- C5 helper: on well-formed gap-or-meet input the whole repair is the
"snap ends to next start" map. -/
lemma adjust_eq_snap (wt : List Entry) (hw : wt.all wfTiming = true)
    (hc : wt.Chain' (fun a b => meetsNext a b = true)) :
    adjust_word_timings_for_continuity wt = snapEndsSpec wt := by
  unfold adjust_word_timings_for_continuity
  by_cases hlen : wt.length ≤ 1
  · rw [if_pos hlen]
    match wt with
    | [] => rfl
    | [e] => simp [snapEndsSpec]
    | a :: b :: t => simp at hlen
  · rw [if_neg hlen, cleanPass_of_wf wt hw]
    exact continuityPass_snap wt hw hc

lemma continuityPass_head_start : ∀ (b : Entry) (t : List Entry),
    (continuityPass (b :: t)).head?.map (fun e => e.2.1) = some b.2.1
  | b, [] => by simp [continuityPass]
  | b, c :: t' => by
    obtain ⟨w, s?, e?⟩ := b
    match s?, e? with
    | some s, some en => rfl
    | some s, none => rfl
    | none, some en => rfl
    | none, none => rfl

lemma continuityPass_contiguous : ∀ l : List Entry,
    l.all numericTiming = true →
    l.Chain' (fun a b => meetsNext a b = true) →
    contiguousB (continuityPass l) = true
  | [] => by intro _ _; rfl
  | [a] => by
    intro _ _
    simp [continuityPass, contiguousB]
  | a :: b :: t => by
    intro hn hc
    simp only [List.all_cons, Bool.and_eq_true] at hn
    obtain ⟨hna, hnb, hnt⟩ := hn
    have hab : meetsNext a b = true := (List.chain'_cons.mp hc).1
    have hrest := (List.chain'_cons.mp hc).2
    have ih := continuityPass_contiguous (b :: t) (by simp [hnb, hnt]) hrest
    obtain ⟨w, s?, e?⟩ := a
    obtain ⟨w2, s2?, e2?⟩ := b
    match s?, e?, s2?, e2? with
    | some s, some en, some s2, some e2 =>
      have hle : en ≤ s2 := by simpa [meetsNext] using hab
      have hsnap : (if en < s2 then s2 else if s2 < en then (en + s2) / 2 else en) = s2 := by
        rcases lt_or_eq_of_le hle with h | h
        · simp [h]
        · simp [h, lt_irrefl]
      have hstep : continuityPass ((w, some s, some en) :: (w2, some s2, some e2) :: t)
          = (w, some s, some (if en < s2 then s2 else if s2 < en then (en + s2) / 2 else en))
            :: continuityPass ((w2, some s2, some e2) :: t) := rfl
      rw [hstep, hsnap]
      have hhead := continuityPass_head_start (w2, some s2, some e2) t
      match hcp : continuityPass ((w2, some s2, some e2) :: t) with
      | [] => simp [hcp] at hhead
      | y :: ys =>
        rw [hcp] at hhead ih
        simp only [List.head?_cons, Option.map_some] at hhead
        have hy : y.2.1 = some s2 := by
          simpa using hhead
        show (decide ((some s2 : Option ℚ) = y.2.1) && contiguousB (y :: ys)) = true
        simp [hy, ih]
    | some s, some en, some s2, none => simp [numericTiming] at hnb
    | some s, some en, none, e2? => simp [numericTiming] at hnb
    | some s, none, s2?, e2? => simp [numericTiming] at hna
    | none, e?, s2?, e2? => simp [numericTiming] at hna

lemma cleanEntry_numeric (e : Entry) (h : numericTiming e = true) :
    numericTiming (cleanEntry e) = true := by
  obtain ⟨w, s?, e?⟩ := e
  match s?, e? with
  | some s, some en => rfl
  | some s, none => simp [numericTiming] at h
  | none, e? => simp [numericTiming] at h

lemma cleanPass_numeric (wt : List Entry) (h : wt.all numericTiming = true) :
    (cleanPass wt).all numericTiming = true := by
  unfold cleanPass
  rw [List.all_eq_true] at h ⊢
  intro e he
  obtain ⟨x, hx, rfl⟩ := List.mem_map.mp he
  exact cleanEntry_numeric x (h x hx)

/-- **C1** (amended). The repaired list returned by
`adjust_word_timings_for_continuity` is contiguous for every raw list with
numeric times in which, after the first repair pass, no entry overlaps its
successor (each cleaned entry's end is at most the next cleaned entry's
start); this covers empty, single-element and out-of-order lists.  When
two consecutive cleaned entries overlap, the repair instead sets the
earlier end to the midpoint of that end and the next start, which breaks
contiguity (see the counterexample). -/
theorem C1_contiguous_of_no_overlap (wt : List Entry)
    (hnum : wt.all numericTiming = true)
    (hchain : (cleanPass wt).Chain' (fun a b => meetsNext a b = true)) :
    contiguousB (adjust_word_timings_for_continuity wt) = true := by
  unfold adjust_word_timings_for_continuity
  by_cases hlen : wt.length ≤ 1
  · rw [if_pos hlen]
    match wt with
    | [] => rfl
    | [e] => rfl
    | a :: b :: t => simp at hlen
  · rw [if_neg hlen]
    exact continuityPass_contiguous (cleanPass wt) (cleanPass_numeric wt hnum) hchain

/-- **C1** witness: a concrete gap-only list where the theorem applies. -/
theorem C1_contiguous_of_no_overlap_witness :
    contiguousB (adjust_word_timings_for_continuity
      [("x".toList, some 0, some 1), ("y".toList, some 2, some 3)]) = true :=
  C1_contiguous_of_no_overlap
    [("x".toList, some 0, some 1), ("y".toList, some 2, some 3)]
    (by simp [numericTiming])
    (by
      simp [cleanPass, cleanEntry, List.chain'_cons, meetsNext]
      norm_num)

/-- **C1** counterexample: on the adversarially overlapping list
`[("a",0,2),("b",1,3)]` the repair sets the first end to the midpoint 1.5,
not to the next start 1, so the repaired list is not contiguous. -/
theorem C1_overlap_not_contiguous :
    adjust_word_timings_for_continuity
        [("a".toList, some 0, some 2), ("b".toList, some 1, some 3)]
      = [("a".toList, some 0, some (3/2)), ("b".toList, some 1, some 3)] ∧
    contiguousB (adjust_word_timings_for_continuity
        [("a".toList, some 0, some 2), ("b".toList, some 1, some 3)]) = false := by
  have h : adjust_word_timings_for_continuity
      [("a".toList, some 0, some 2), ("b".toList, some 1, some 3)]
      = [("a".toList, some 0, some (3/2)), ("b".toList, some 1, some 3)] := by
    simp [adjust_word_timings_for_continuity, cleanPass, cleanEntry, continuityPass]
    norm_num
  refine ⟨h, ?_⟩
  rw [h]
  simp [contiguousB]
  norm_num

/-- The total duration that `estimate_word_timings_from_duration`
distributes: the given duration when it is a positive number, otherwise
0.3 s per highlightable word (restates the defaulting on its lines
352-356 for use in specification statements). -/
def uniformDuration (text : List Char) (total : Option ℚ) : ℚ :=
  match total with
  | none => (3/10 : ℚ) * (get_highlightable_words text).length
  | some d => if d ≤ 0 then (3/10 : ℚ) * (get_highlightable_words text).length else d

lemma estimate_spec (text : List Char) (total : Option ℚ) :
    (estimate_word_timings_from_duration text total).length
      = (get_highlightable_words text).length ∧
    ∀ i (hi : i < (get_highlightable_words text).length),
      (estimate_word_timings_from_duration text total)[i]? =
        some ((get_highlightable_words text)[i],
          some ((i : ℚ) * (uniformDuration text total /
            ((get_highlightable_words text).length : ℚ))),
          some (((i : ℚ) + 1) * (uniformDuration text total /
            ((get_highlightable_words text).length : ℚ)))) := by
  unfold estimate_word_timings_from_duration uniformDuration
  by_cases hemp : (get_highlightable_words text).isEmpty
  · rw [if_pos hemp]
    rw [List.isEmpty_iff] at hemp
    constructor
    · simp [hemp]
    · intro i hi
      rw [hemp] at hi
      simp at hi
  · rw [if_neg hemp]
    constructor
    · simp
    · intro i hi
      rw [List.getElem?_map, List.getElem?_enum]
      rw [List.getElem?_eq_getElem hi]
      simp

/-- **C4**. With empty raw timings the reconciler estimates uniform
timing: one entry per highlightable word, entry `i` spanning
`[i·tpw, (i+1)·tpw]` where `tpw` is the total duration divided by the
word count (total defaulting to 0.3 s per word when no positive duration
is supplied), hence contiguous and starting at 0; and on the concrete
scenario text "one two three" with total duration 3.0 the reconciled
timings are three 1.0 s entries ending at 3.0. -/
theorem C4_empty_raw_uniform :
    (∀ text : List Char, ∀ total : Option ℚ,
      (estimate_word_timings_from_duration text total).length
        = (get_highlightable_words text).length) ∧
    (∀ text : List Char, ∀ total : Option ℚ, ∀ i,
      ∀ hi : i < (get_highlightable_words text).length,
      (estimate_word_timings_from_duration text total)[i]? =
        some ((get_highlightable_words text)[i],
          some ((i : ℚ) * (uniformDuration text total /
            ((get_highlightable_words text).length : ℚ))),
          some (((i : ℚ) + 1) * (uniformDuration text total /
            ((get_highlightable_words text).length : ℚ))))) ∧
    (∀ text : List Char, ∀ total : Option ℚ,
      contiguousB (estimate_word_timings_from_duration text total) = true) ∧
    (∀ text : List Char, ∀ d : ℚ,
      (process_tts_timing_data text [] (some d)).word_timings
        = estimate_word_timings_from_duration text (some d)) ∧
    (process_tts_timing_data "one two three".toList [] (some 3)).word_timings
      = [("one".toList, some 0, some 1), ("two".toList, some 1, some 2),
         ("three".toList, some 2, some 3)] := by
  refine ⟨fun text total => (estimate_spec text total).1,
    fun text total => (estimate_spec text total).2, ?_, ?_, ?_⟩
  · intro text total
    obtain ⟨hlen, hidx⟩ := estimate_spec text total
    rw [contiguousB_iff]
    intro i hi
    rw [hlen] at hi
    rw [hidx i (by omega), hidx (i + 1) hi]
    simp only [Option.map_some']
    refine congrArg some ?_
    push_cast
    ring_nf
  · intro text d
    rfl
  · show estimate_word_timings_from_duration "one two three".toList (some 3) = _
    simp [estimate_word_timings_from_duration, get_highlightable_words, pySplit,
      pySplitGo, pyStrip, isPunct, pyPunctuation, isSpaceChar, List.enum,
      List.enumFrom]
    norm_num

/-- **C4** witness: the general per-index description instantiated on the
scenario text at index 0. -/
theorem C4_empty_raw_uniform_witness :
    (estimate_word_timings_from_duration "one two three".toList (some 3))[0]? =
      some ((get_highlightable_words "one two three".toList).get ⟨0, by decide⟩,
        some ((0 : ℚ) * (uniformDuration "one two three".toList (some 3) /
          ((get_highlightable_words "one two three".toList).length : ℚ))),
        some (((0 : ℚ) + 1) * (uniformDuration "one two three".toList (some 3) /
          ((get_highlightable_words "one two three".toList).length : ℚ)))) :=
  C4_empty_raw_uniform.2.1 "one two three".toList (some 3) 0 (by decide)

/-- **C5**. For well-formed raw lists (numeric times, end ≥ start,
duration ≥ 50 ms) whose consecutive entries leave a gap or meet exactly,
the repair sets each non-final entry's end to the next entry's start and
keeps the last entry's end; on the concrete scenario
`[("Hello",0.5,1.2),("world",1.5,2.3)]` it yields
`[("Hello",0.5,1.5),("world",1.5,2.3)]`. -/
theorem C5_gap_meet_snap :
    (∀ wt : List Entry, wt.all wfTiming = true →
      wt.Chain' (fun a b => meetsNext a b = true) →
      adjust_word_timings_for_continuity wt = snapEndsSpec wt) ∧
    adjust_word_timings_for_continuity
        [("Hello".toList, some (1/2), some (6/5)), ("world".toList, some (3/2), some (23/10))]
      = [("Hello".toList, some (1/2), some (3/2)), ("world".toList, some (3/2), some (23/10))] :=
  ⟨adjust_eq_snap, by
    simp [adjust_word_timings_for_continuity, cleanPass, cleanEntry, continuityPass]
    norm_num⟩

/-- **C5** witness: the general snap description applied to a concrete
well-formed gap list. -/
theorem C5_gap_meet_snap_witness :
    adjust_word_timings_for_continuity
        [("u".toList, some 0, some 1), ("v".toList, some 1, some 2)]
      = snapEndsSpec [("u".toList, some 0, some 1), ("v".toList, some 1, some 2)] :=
  C5_gap_meet_snap.1 [("u".toList, some 0, some 1), ("v".toList, some 1, some 2)]
    (by simp [wfTiming]; norm_num)
    (by simp [List.chain'_cons, meetsNext])

/-! ## Lemmas for the word mapping (C2) -/

lemma continuityPass_length : ∀ l : List Entry, (continuityPass l).length = l.length
  | [] => rfl
  | [e] => by simp [continuityPass]
  | a :: b :: t => by
    have ih := continuityPass_length (b :: t)
    obtain ⟨w, s?, e?⟩ := a
    match s?, e? with
    | some s, some en => simpa [continuityPass] using ih
    | some s, none => simpa [continuityPass] using ih
    | none, some en => simpa [continuityPass] using ih
    | none, none => simpa [continuityPass] using ih

lemma adjust_length (wt : List Entry) :
    (adjust_word_timings_for_continuity wt).length = wt.length := by
  unfold adjust_word_timings_for_continuity
  split
  · rfl
  · rw [continuityPass_length, cleanPass, List.length_map]

lemma mappingGo_length (ttsS : List (List Char)) (T : Nat) :
    ∀ (os : List (List Char)) (ti : Nat) (last : Option Nat),
      (mappingGo ttsS T os ti last).length = os.length := by
  intro os
  induction os with
  | nil => intro ti last; rfl
  | cons oS rest ih =>
    intro ti last
    simp only [mappingGo]
    repeat' split
    all_goals simp [ih]

lemma findBestGo_first (ttsS : List (List Char)) (o : List Char) (b : Nat) :
    ∀ (idxs : List Nat) (acc : Option Nat × Nat),
      (findBestGo ttsS o idxs acc).1 = some b → acc.1 = some b ∨ b ∈ idxs := by
  intro idxs
  induction idxs with
  | nil => intro acc h; exact Or.inl h
  | cons idx rest ih =>
    intro acc h
    obtain ⟨bi, bs⟩ := acc
    simp only [findBestGo] at h
    by_cases hemp : ((ttsS.get? idx).getD []).isEmpty
    · rw [if_pos hemp] at h
      rcases ih (bi, bs) h with h' | h'
      · exact Or.inl h'
      · exact Or.inr (List.mem_cons_of_mem _ h')
    · rw [if_neg hemp] at h
      by_cases hlt : bs < matchScore o ((ttsS.get? idx).getD [])
      · rw [if_pos hlt] at h
        by_cases h100 : matchScore o ((ttsS.get? idx).getD []) = 100
        · rw [if_pos h100] at h
          simp at h
          exact Or.inr (h ▸ List.mem_cons_self idx rest)
        · rw [if_neg h100] at h
          rcases ih (some idx, matchScore o ((ttsS.get? idx).getD [])) h with h' | h'
          · simp at h'
            exact Or.inr (h' ▸ List.mem_cons_self idx rest)
          · exact Or.inr (List.mem_cons_of_mem _ h')
      · rw [if_neg hlt] at h
        rcases ih (bi, bs) h with h' | h'
        · exact Or.inl h'
        · exact Or.inr (List.mem_cons_of_mem _ h')

lemma mappingGo_bound (ttsS : List (List Char)) (T : Nat) (hT : 1 ≤ T) :
    ∀ (os : List (List Char)) (ti : Nat) (last : Option Nat),
      (∀ l, last = some l → l < T) →
      ∀ e ∈ mappingGo ttsS T os ti last, e < T := by
  intro os
  induction os with
  | nil => intro ti last _ e he; simp [mappingGo] at he
  | cons oS rest ih =>
    intro ti last hlast e he
    simp only [mappingGo] at he
    by_cases hex : T ≤ ti
    · rw [if_pos hex] at he
      rcases List.mem_cons.mp he with rfl | h'
      · omega
      · exact ih ti (some (T - 1)) (by intro l hl; cases hl; omega) e h'
    · rw [if_neg hex] at he
      by_cases hoe : oS.isEmpty
      · rw [if_pos hoe] at he
        match last, hlast with
        | some pm, hlast =>
          have he' : e ∈ pm :: mappingGo ttsS T rest ti (some pm) := he
          rcases List.mem_cons.mp he' with rfl | h'
          · exact hlast e rfl
          · exact ih ti (some pm) (fun l hpl => by cases hpl; exact hlast _ rfl) e h'
        | none, hlast =>
          have he' : e ∈ 0 :: mappingGo ttsS T rest ti (some 0) := he
          rcases List.mem_cons.mp he' with rfl | h'
          · omega
          · exact ih ti (some 0) (by intro l hpl; cases hpl; omega) e h'
      · rw [if_neg hoe] at he
        match hfb : findBestGo ttsS oS (List.range' ti (min T (ti + 5) - ti)) (none, 0) with
        | (some b, bs) =>
          rw [hfb] at he
          dsimp only at he
          have hbT : b < T := by
            rcases findBestGo_first ttsS oS b _ _ (by rw [hfb]) with h' | h'
            · simp at h'
            · have := List.mem_range'_1.mp h'
              omega
          by_cases hbs : bs = 0
          · rw [if_pos hbs] at he
            rcases List.mem_cons.mp he with rfl | h'
            · omega
            · exact ih (ti + 1) (some ti) (by intro l hpl; cases hpl; omega) e h'
          · rw [if_neg hbs] at he
            rcases List.mem_cons.mp he with rfl | h'
            · exact hbT
            · exact ih _ (some b) (by intro l hpl; cases hpl; exact hbT) e h'
        | (none, bs) =>
          rw [hfb] at he
          rcases List.mem_cons.mp he with rfl | h'
          · omega
          · exact ih (ti + 1) (some ti) (by intro l hpl; cases hpl; omega) e h'

/-- C2 helper: on non-empty inputs `create_word_mapping` returns one entry
per original word, each a valid index into the TTS timing list. -/
lemma create_word_mapping_spec (orig : List (List Char)) (tts : List Entry)
    (ho : orig ≠ []) (ht : tts ≠ []) :
    ∃ m, create_word_mapping orig tts = some m ∧
      m.length = orig.length ∧ ∀ e ∈ m, e < tts.length := by
  unfold create_word_mapping
  rw [if_neg (by simp [List.isEmpty_iff, ho, ht])]
  by_cases hperf : orig.length = (tts.map (fun e => e.1)).length ∧
      orig.map sanitize_word = (tts.map (fun e => e.1)).map sanitize_word
  · rw [if_pos hperf]
    refine ⟨_, rfl, List.length_range _, ?_⟩
    intro e he
    rw [List.mem_range] at he
    have hlen : orig.length = tts.length := by simpa using hperf.1
    omega
  · rw [if_neg hperf]
    refine ⟨_, rfl, ?_, ?_⟩
    · rw [mappingGo_length, List.length_map]
    · have hT : 1 ≤ (tts.map (fun e => e.1)).length := by
        simpa [Nat.succ_le, List.length_pos] using ht
      intro e he
      have := mappingGo_bound ((tts.map (fun e => e.1)).map sanitize_word)
        (tts.map (fun e => e.1)).length hT (orig.map sanitize_word) 0 none
        (by intro l hl; cases hl) e he
      simpa using this

/-- **C2** (amended). For every original text with at least one
highlightable word and every raw timing list and duration, the reconciled
bundle's `word_mapping` is present, has exactly one entry per
highlightable word, and every entry is a valid index into the returned
`word_timings`. -/
theorem C2_mapping_total (text : List Char) (raw : List Entry) (dur : Option ℚ)
    (h : get_highlightable_words text ≠ []) :
    ∃ m, (process_tts_timing_data text raw dur).word_mapping = some m ∧
      m.length = (get_highlightable_words text).length ∧
      ∀ j ∈ m, j < (process_tts_timing_data text raw dur).word_timings.length := by
  have hestlen : ∀ t : Option ℚ,
      (estimate_word_timings_from_duration text t).length
        = (get_highlightable_words text).length := fun t => (estimate_spec text t).1
  have hestne : ∀ t : Option ℚ, estimate_word_timings_from_duration text t ≠ [] := by
    intro t hnil
    apply h
    have := hestlen t
    rw [hnil] at this
    exact List.length_eq_zero.mp this.symm
  unfold process_tts_timing_data processBody
  by_cases hr : raw.isEmpty
  · rw [if_pos hr]
    obtain ⟨m, hm, hlen, hb⟩ := create_word_mapping_spec (get_highlightable_words text)
      (estimate_word_timings_from_duration text
        (some (dur.getD ((3/10 : ℚ) * (pySplit text).length)))) h (hestne _)
    exact ⟨m, hm, hlen, hb⟩
  · rw [if_neg hr]
    have hne : adjust_word_timings_for_continuity raw ≠ [] := by
      intro hnil
      have := adjust_length raw
      rw [hnil] at this
      exact hr (List.isEmpty_iff.mpr (List.length_eq_zero.mp this.symm))
    dsimp only
    cases hsd : calculate_speech_duration (adjust_word_timings_for_continuity raw) with
    | error err =>
      obtain ⟨m, hm, hlen, hb⟩ := create_word_mapping_spec (get_highlightable_words text)
        (estimate_word_timings_from_duration text
          (some ((3/10 : ℚ) * (get_highlightable_words text).length))) h (hestne _)
      exact ⟨m, hm, hlen, hb⟩
    | ok sd =>
      obtain ⟨m, hm, hlen, hb⟩ := create_word_mapping_spec (get_highlightable_words text)
        (adjust_word_timings_for_continuity raw) h hne
      exact ⟨m, hm, hlen, hb⟩

/-- **C2** witness: concrete text with highlightable words and a mismatched
raw list. -/
theorem C2_mapping_total_witness :
    ∃ m, (process_tts_timing_data "hello world".toList
        [("hello".toList, some 0, some 1)] none).word_mapping = some m ∧
      m.length = (get_highlightable_words "hello world".toList).length ∧
      ∀ j ∈ m, j < (process_tts_timing_data "hello world".toList
        [("hello".toList, some 0, some 1)] none).word_timings.length :=
  C2_mapping_total "hello world".toList [("hello".toList, some 0, some 1)] none
    (by decide)

/-- **C2** counterexample to the claim as stated: the non-empty text
`"!!!"` has no highlightable word, and the reconciler returns
`word_mapping = None` rather than a word-indexed list. -/
theorem C2_no_highlightable_mapping_none :
    "!!!".toList ≠ [] ∧
    (process_tts_timing_data "!!!".toList
      [("x".toList, some 0, some 1)] none).word_mapping = none := by
  constructor
  · decide
  · decide

/-- **C3**. `process_tts_timing_data` never raises: when its `try:` body
succeeds the caller receives exactly the computed bundle, and when the
body raises (the only raising statement being the `None`-tainted `max`)
the caller receives the fallback bundle — word timings, speech duration,
total duration and word mapping all estimated uniformly (0.3 s per word)
from the original text alone. -/
theorem C3_no_raise_fallback :
    (∀ (text : List Char) (raw : List Entry) (dur : Option ℚ) (b : TimingBundle),
      processBody text raw dur = .ok b →
      process_tts_timing_data text raw dur = b) ∧
    (∀ (text : List Char) (raw : List Entry) (dur : Option ℚ),
      processBody text raw dur = .error () →
      process_tts_timing_data text raw dur =
        { word_timings := estimate_word_timings_from_duration text
            (some ((3/10 : ℚ) * (get_highlightable_words text).length)),
          speech_duration := some ((3/10 : ℚ) * (get_highlightable_words text).length),
          total_duration := some ((3/10 : ℚ) * (get_highlightable_words text).length),
          word_mapping := create_word_mapping (get_highlightable_words text)
            (estimate_word_timings_from_duration text
              (some ((3/10 : ℚ) * (get_highlightable_words text).length))) }) := by
  constructor
  · intro text raw dur b hb
    unfold process_tts_timing_data
    rw [hb]
  · intro text raw dur hb
    unfold process_tts_timing_data
    rw [hb]
    rfl

/-- **C3** witness: a raw list whose `None` end time makes the body raise;
the caller still receives the uniform fallback bundle. -/
theorem C3_no_raise_fallback_witness :
    process_tts_timing_data "hi".toList
        [("a".toList, some 0, none), ("b".toList, some 1, some 2)] none =
      { word_timings := estimate_word_timings_from_duration "hi".toList
          (some ((3/10 : ℚ) * (get_highlightable_words "hi".toList).length)),
        speech_duration := some ((3/10 : ℚ) * (get_highlightable_words "hi".toList).length),
        total_duration := some ((3/10 : ℚ) * (get_highlightable_words "hi".toList).length),
        word_mapping := create_word_mapping (get_highlightable_words "hi".toList)
          (estimate_word_timings_from_duration "hi".toList
            (some ((3/10 : ℚ) * (get_highlightable_words "hi".toList).length))) } :=
  C3_no_raise_fallback.2 "hi".toList
    [("a".toList, some 0, none), ("b".toList, some 1, some 2)] none rfl

/-! ## `lue/content_parser.py`: `split_into_sentences`

The two protection passes replace periods after recognized abbreviations
and after single capital initials with the placeholder `<LUE_PERIOD>`
(`re.sub` with `IGNORECASE` for the abbreviations), the text is then split
at whitespace runs preceded by `[.!?]`, and the placeholders are restored
to periods. -/

/-- Char roundtrip through `Char.ofNat` on valid scalar values. -/
lemma char_toNat_ofNat {n : Nat} (h : n < 55296) : (Char.ofNat n).toNat = n := by
  rw [Char.ofNat, dif_pos (Or.inl h)]
  simp [Char.ofNatAux, Char.toNat, UInt32.toNat, BitVec.toNat_ofNatLt]

lemma isUpper_iff (c : Char) : c.isUpper = true ↔ 65 ≤ c.toNat ∧ c.toNat ≤ 90 := by
  rw [Char.isUpper]
  rw [Bool.and_eq_true, decide_eq_true_eq, decide_eq_true_eq]
  constructor
  · rintro ⟨h1, h2⟩
    exact ⟨UInt32.le_toNat_of_le (by norm_num) h1, UInt32.toNat_le_of_le (by norm_num) h2⟩
  · rintro ⟨h1, h2⟩
    refine ⟨?_, ?_⟩
    · show (65:UInt32) ≤ c.val
      rw [UInt32.le_def, BitVec.le_def]; exact h1
    · show c.val ≤ (90:UInt32)
      rw [UInt32.le_def, BitVec.le_def]; exact h2

lemma isLower_iff (c : Char) : c.isLower = true ↔ 97 ≤ c.toNat ∧ c.toNat ≤ 122 := by
  rw [Char.isLower]
  rw [Bool.and_eq_true, decide_eq_true_eq, decide_eq_true_eq]
  constructor
  · rintro ⟨h1, h2⟩
    exact ⟨UInt32.le_toNat_of_le (by norm_num) h1, UInt32.toNat_le_of_le (by norm_num) h2⟩
  · rintro ⟨h1, h2⟩
    refine ⟨?_, ?_⟩
    · show (97:UInt32) ≤ c.val
      rw [UInt32.le_def, BitVec.le_def]; exact h1
    · show c.val ≤ (122:UInt32)
      rw [UInt32.le_def, BitVec.le_def]; exact h2

lemma isAlpha_iff (c : Char) : c.isAlpha = true ↔
    (65 ≤ c.toNat ∧ c.toNat ≤ 90) ∨ (97 ≤ c.toNat ∧ c.toNat ≤ 122) := by
  rw [Char.isAlpha, Bool.or_eq_true, isUpper_iff, isLower_iff]

/-- The abbreviation alternation of `split_into_sentences`, in source
order. -/
def abbrevList : List (List Char) :=
  ["Mr".toList, "Mrs".toList, "Ms".toList, "Dr".toList, "Prof".toList,
   "Rev".toList, "Hon".toList, "Jr".toList, "Sr".toList, "Cpl".toList,
   "Sgt".toList, "Gen".toList, "Col".toList, "Capt".toList, "Lt".toList,
   "Pvt".toList, "vs".toList, "viz".toList, "etc".toList, "eg".toList,
   "ie".toList, "Co".toList, "Inc".toList, "Ltd".toList, "Corp".toList,
   "St".toList, "Ave".toList, "Blvd".toList]

/-- The placeholder `<LUE_PERIOD>`. -/
def placeholderChars : List Char := "<LUE_PERIOD>".toList

/-- Case-insensitive character comparison (`re.IGNORECASE` over ASCII). -/
def ciEq (b c : Char) : Bool := b.toLower == c.toLower

lemma toLower_toNat (c : Char) :
    (c.toLower).toNat = if 65 ≤ c.toNat ∧ c.toNat ≤ 90 then c.toNat + 32 else c.toNat := by
  rw [Char.toLower]
  by_cases h : c.toNat ≥ 65 ∧ c.toNat ≤ 90
  · rw [if_pos h, if_pos h, char_toNat_ofNat (by omega)]
  · rw [if_neg h, if_neg h]

/-- A letter matches only letters under case-insensitive comparison. -/
lemma ciEq_alpha {b c : Char} (hb : b.isAlpha = true) (h : ciEq b c = true) :
    c.isAlpha = true := by
  have heq : b.toLower = c.toLower := by simpa [ciEq] using h
  have htn : (b.toLower).toNat = (c.toLower).toNat := by rw [heq]
  rw [toLower_toNat, toLower_toNat] at htn
  rw [isAlpha_iff] at hb ⊢
  split at htn <;> split at htn <;> omega

/-- Case-insensitive prefix match: consumes the pattern against the text,
returning the matched text characters and the rest. -/
def ciTakeMatch : List Char → List Char → Option (List Char × List Char)
  | [], s => some ([], s)
  | _ :: _, [] => none
  | b :: bs, c :: cs =>
    if ciEq b c then (ciTakeMatch bs cs).map (fun p => (c :: p.1, p.2)) else none

/-- The regex alternation `(Mr|Mrs|...)\.`: the first abbreviation (in
source order) that case-insensitively matches and is followed by a
period; returns the matched text and the rest after the period. -/
def matchAbbrevDot : List (List Char) → List Char → Option (List Char × List Char)
  | [], _ => none
  | a :: as, s =>
    match ciTakeMatch a s with
    | some (m, '.' :: r) => some (m, r)
    | _ => matchAbbrevDot as s

/-- Scanner of the first `re.sub` of `split_into_sentences`: at a word
boundary (`bdry`: previous character non-word or start of string), an
abbreviation followed by a period is kept and its period replaced by the
placeholder; scanning resumes after the period. -/
def protectAbbrevGo : Nat → Bool → List Char → List Char
  | _, _, [] => []
  | 0, _, s => s
  | fuel + 1, bdry, c :: t =>
    if bdry then
      match matchAbbrevDot abbrevList (c :: t) with
      | some (m, r) => m ++ placeholderChars ++ protectAbbrevGo fuel true r
      | none => c :: protectAbbrevGo fuel (!isWordChar c) t
    else c :: protectAbbrevGo fuel (!isWordChar c) t

/-- Step 1 of `split_into_sentences`. -/
def protect_abbreviations (s : List Char) : List Char :=
  protectAbbrevGo s.length true s

/-- Second character of the look-ahead `(?=\s[A-Z])`: the next-but-one
character exists and is a capital. -/
def lookUpper : List Char → Bool
  | e :: _ => e.isUpper
  | [] => false

/-- Scanner of the second `re.sub`: `\b([A-Z])\.(?=\s[A-Z])` becomes the
capital plus the placeholder; the look-ahead is not consumed. -/
def protectInitialsGo : Nat → Bool → List Char → List Char
  | _, _, [] => []
  | 0, _, s => s
  | fuel + 1, bdry, c :: t =>
    match t with
    | d :: w :: u =>
      if bdry && c.isUpper && d == '.' && isSpaceChar w && lookUpper u then
        c :: (placeholderChars ++ protectInitialsGo fuel true (w :: u))
      else c :: protectInitialsGo fuel (!isWordChar c) t
    | _ => c :: protectInitialsGo fuel (!isWordChar c) t

/-- Step 2 of `split_into_sentences`. -/
def protect_initials (s : List Char) : List Char :=
  protectInitialsGo s.length true s

/-- The sentence delimiters `[.!?]`. -/
def isDelim (c : Char) : Bool := c == '.' || c == '!' || c == '?'

/-- Scanner of `re.split(r'(?<=[.!?])\s+', s)`: split at each maximal
whitespace run whose preceding character is a delimiter (after a split
the preceding character is whitespace, so `prev` restarts at `none`). -/
def splitDelimGo : Nat → List Char → Option Char → List Char → List (List Char)
  | _, acc, _, [] => [acc.reverse]
  | 0, acc, _, s => [acc.reverse ++ s]
  | fuel + 1, acc, prev, c :: t =>
    if isSpaceChar c && (match prev with | some d => isDelim d | none => false) then
      acc.reverse :: splitDelimGo fuel [] none ((c :: t).dropWhile isSpaceChar)
    else splitDelimGo fuel (c :: acc) (some c) t

/-- Step 3 of `split_into_sentences`. -/
def splitAtDelims (s : List Char) : List (List Char) :=
  splitDelimGo s.length [] none s

/-- Python `str.replace(placeholder, ".")`: restore every placeholder
occurrence, left to right. -/
def replacePlaceholder : Nat → List Char → List Char
  | _, [] => []
  | 0, s => s
  | fuel + 1, c :: t =>
    if placeholderChars.isPrefixOf (c :: t) then
      '.' :: replacePlaceholder fuel ((c :: t).drop placeholderChars.length)
    else c :: replacePlaceholder fuel t

/-- Step 4 of `split_into_sentences` for one piece. -/
def restoreSentence (s : List Char) : List Char :=
  replacePlaceholder s.length s

/-- `split_into_sentences`: protect abbreviation and initial periods,
split at `(?<=[.!?])\s+`, restore placeholders, drop empty pieces; if
nothing remains, return the (protected) paragraph as a single sentence. -/
def split_into_sentences (p : List Char) : List (List Char) :=
  let prot := protect_initials (protect_abbreviations p)
  let pieces := splitAtDelims prot
  let restored := pieces.filterMap fun s =>
    if s.isEmpty then none
    else
      let r := restoreSentence s
      if r.isEmpty then none else some r
  if restored.isEmpty then [prot] else restored

/-! ## C6: no split immediately after an abbreviation's period -/

/-- `ciPrefixDot B s`: the string `s` begins with the abbreviation `B`
(case-insensitively) immediately followed by a period — the reading of
`(B)\.` at the current position. -/
def ciPrefixDot : List Char → List Char → Bool
  | [], [] => false
  | [], c :: _ => c == '.'
  | _ :: _, [] => false
  | b :: bs, c :: cs => ciEq b c && ciPrefixDot bs cs

/-- Some recognized abbreviation, immediately followed by a period, starts
at the head of `s`. -/
def hasAbbrevDotAt (s : List Char) : Bool :=
  abbrevList.any fun a => ciPrefixDot a s

/-- `hasBad bdry s`: somewhere in `s` a recognized abbreviation starts at
a word boundary and is immediately followed by a period (`bdry`: whether
a word boundary holds before the head of `s`). -/
def hasBad : Bool → List Char → Bool
  | _, [] => false
  | bdry, c :: t => (bdry && hasAbbrevDotAt (c :: t)) || hasBad (!isWordChar c) t

lemma ciPrefixDot_eq : ∀ (a s : List Char),
    ciPrefixDot a s =
      match ciTakeMatch a s with
      | some (_, rc :: _) => rc == '.'
      | _ => false
  | [], [] => rfl
  | [], c :: cs => rfl
  | b :: bs, [] => rfl
  | b :: bs, c :: cs => by
    by_cases h : ciEq b c = true
    · have ih := ciPrefixDot_eq bs cs
      cases hm : ciTakeMatch bs cs with
      | none => simp [ciPrefixDot, ciTakeMatch, h, hm, ih]
      | some p =>
        obtain ⟨m', r'⟩ := p
        cases r' with
        | nil => simp [ciPrefixDot, ciTakeMatch, h, hm, ih]
        | cons rc rr => simp [ciPrefixDot, ciTakeMatch, h, hm, ih]
    · simp [ciPrefixDot, ciTakeMatch, h]

lemma ciTakeMatch_append : ∀ (a s m r : List Char),
    ciTakeMatch a s = some (m, r) → s = m ++ r ∧ m.length = a.length
  | [], s, m, r => by
    intro h
    simp [ciTakeMatch] at h
    obtain ⟨rfl, rfl⟩ := h
    exact ⟨rfl, rfl⟩
  | b :: bs, [], m, r => by intro h; simp [ciTakeMatch] at h
  | b :: bs, c :: cs, m, r => by
    intro h
    by_cases hc : ciEq b c = true
    · rw [ciTakeMatch, if_pos hc] at h
      cases hm : ciTakeMatch bs cs with
      | none => rw [hm] at h; simp at h
      | some p =>
        obtain ⟨m', r'⟩ := p
        rw [hm] at h
        simp only [Option.map_some'] at h
        obtain ⟨hm1, hm2⟩ := Prod.mk.injEq .. ▸ Option.some.injEq .. ▸ h
        obtain ⟨hs, hl⟩ := ciTakeMatch_append bs cs m' r' hm
        subst hm1
        subst hm2
        constructor
        · rw [hs]; rfl
        · simp [hl]
    · rw [ciTakeMatch, if_neg hc] at h
      simp at h

lemma ciTakeMatch_alpha : ∀ (a s m r : List Char), a.all Char.isAlpha = true →
    ciTakeMatch a s = some (m, r) → m.all Char.isAlpha = true
  | [], s, m, r => by
    intro _ h
    simp [ciTakeMatch] at h
    obtain ⟨rfl, rfl⟩ := h
    rfl
  | b :: bs, [], m, r => by intro _ h; simp [ciTakeMatch] at h
  | b :: bs, c :: cs, m, r => by
    intro ha h
    simp only [List.all_cons, Bool.and_eq_true] at ha
    by_cases hc : ciEq b c = true
    · rw [ciTakeMatch, if_pos hc] at h
      cases hm : ciTakeMatch bs cs with
      | none => rw [hm] at h; simp at h
      | some p =>
        obtain ⟨m', r'⟩ := p
        rw [hm] at h
        simp only [Option.map_some'] at h
        obtain ⟨hm1, hm2⟩ := Prod.mk.injEq .. ▸ Option.some.injEq .. ▸ h
        subst hm1
        have hm'a := ciTakeMatch_alpha bs cs m' r' ha.2 hm
        simp only [List.all_cons, Bool.and_eq_true]
        exact ⟨ciEq_alpha ha.1 hc, hm'a⟩
    · rw [ciTakeMatch, if_neg hc] at h
      simp at h

lemma matchAbbrevDot_some : ∀ (l : List (List Char)) (s m r : List Char),
    matchAbbrevDot l s = some (m, r) →
    ∃ a ∈ l, ciTakeMatch a s = some (m, '.' :: r) := by
  intro l
  induction l with
  | nil => intro s m r h; simp [matchAbbrevDot] at h
  | cons a l' ih =>
    intro s m r h
    rw [matchAbbrevDot] at h
    split at h
    · next m' r' heq =>
      obtain ⟨h1, h2⟩ := Prod.mk.injEq .. ▸ Option.some.injEq .. ▸ h
      subst h1; subst h2
      exact ⟨a, List.mem_cons_self a l', heq⟩
    · obtain ⟨a', ha', hm⟩ := ih s m r h
      exact ⟨a', List.mem_cons_of_mem a ha', hm⟩

lemma matchAbbrevDot_none : ∀ (l : List (List Char)) (s : List Char),
    matchAbbrevDot l s = none → ∀ a ∈ l, ciPrefixDot a s = false := by
  intro l
  induction l with
  | nil => intro s _ a ha; simp at ha
  | cons a l' ih =>
    intro s h a' ha'
    rw [matchAbbrevDot] at h
    split at h
    · simp at h
    · next hnotdot =>
      rcases List.mem_cons.mp ha' with rfl | hmem
      · rw [ciPrefixDot_eq]
        cases hm : ciTakeMatch a' s with
        | none => rfl
        | some p =>
          obtain ⟨m, r⟩ := p
          cases r with
          | nil => rfl
          | cons rc rr =>
            by_cases hrc : rc = '.'
            · subst hrc
              exact absurd hm (hnotdot m rr)
            · simpa using hrc
      · exact ih s h a' hmem

lemma abbrevList_alpha : abbrevList.all (fun a => a.all Char.isAlpha) = true := by
  decide

lemma alpha_ne_dot {c : Char} (hc : c.isAlpha = true) : (c == '.') = false := by
  rw [isAlpha_iff] at hc
  have : c ≠ '.' := by
    intro h
    subst h
    revert hc
    decide
  simpa using this

lemma alpha_ciEq_lt_false {b : Char} (hb : b.isAlpha = true) : ciEq b '<' = false := by
  by_contra h
  have h' : ciEq b '<' = true := by
    revert h
    cases ciEq b '<' <;> simp
  have := ciEq_alpha hb h'
  revert this
  decide

/-- A case-variant abbreviation prefix is killed by the `<` that opens the
placeholder: no abbreviation-plus-period can start on an all-letter block
followed by `<`. -/
lemma ciPrefixDot_letters_lt : ∀ (B : List Char), B.all Char.isAlpha = true →
    ∀ (A : List Char), A.all Char.isAlpha = true → ∀ u,
    ciPrefixDot B (A ++ '<' :: u) = false := by
  intro B
  induction B with
  | nil =>
    intro _ A hA u
    match A, hA with
    | [], _ => rfl
    | a :: A', hA =>
      simp only [List.all_cons, Bool.and_eq_true] at hA
      show (a == '.') = false
      exact alpha_ne_dot hA.1
  | cons b bs ih =>
    intro hB A hA u
    simp only [List.all_cons, Bool.and_eq_true] at hB
    match A, hA with
    | [], _ =>
      show (ciEq b '<' && ciPrefixDot bs u) = false
      rw [alpha_ciEq_lt_false hB.1]
      rfl
    | a :: A', hA =>
      simp only [List.all_cons, Bool.and_eq_true] at hA
      show (ciEq b a && ciPrefixDot bs (A' ++ '<' :: u)) = false
      rw [ih hB.2 A' hA.2 u]
      simp

/-- Nothing abbreviation-like starts on an all-letter block followed by
the placeholder. -/
lemma hasAbbrev_letters_lt (A : List Char) (hA : A.all Char.isAlpha = true)
    (u : List Char) : hasAbbrevDotAt (A ++ '<' :: u) = false := by
  rw [hasAbbrevDotAt, List.any_eq_false]
  intro a ha
  simp [ciPrefixDot_letters_lt a (List.all_eq_true.mp abbrevList_alpha a ha) A hA u]

/-- No abbreviation matches at the `L` of the placeholder (the only
candidates `Lt`, `Ltd` die on the following `U`). -/
lemma hasAbbrev_LU (u : List Char) : hasAbbrevDotAt ('L' :: 'U' :: u) = false := by
  rw [hasAbbrevDotAt, List.any_eq_false]
  intro a ha
  have hall : abbrevList.all (fun a => match a with
      | [] => false
      | [_] => true
      | b :: b2 :: _ => !(ciEq b 'L' && ciEq b2 'U')) = true := by decide
  have hk := List.all_eq_true.mp hall a ha
  match a, ha, hk with
  | [], ha, hk => simp at hk
  | [b], ha, _ =>
    show ¬ (ciEq b 'L' && ('U' == '.')) = true
    rw [show ('U' == '.') = false from by decide]
    simp
  | b :: b2 :: bs, ha, hk =>
    have hk' : (!(ciEq b 'L' && ciEq b2 'U')) = true := hk
    show ¬ (ciEq b 'L' && (ciEq b2 'U' && ciPrefixDot bs u)) = true
    by_cases h1 : ciEq b 'L' = true
    · by_cases h2 : ciEq b2 'U' = true
      · rw [h1, h2] at hk'
        simp at hk'
      · rw [(Bool.not_eq_true _).mp h2]
        simp
    · rw [(Bool.not_eq_true _).mp h1]
      simp

/-- Scanning through the placeholder: only its leading `<` and `L` sit at
word boundaries, neither starts an abbreviation-plus-period, and the `>`
re-establishes a word boundary for what follows. -/
lemma hasBad_placeholder (bb : Bool) (u : List Char) :
    hasBad bb (placeholderChars ++ u) = hasBad true u := by
  have h1 : ∀ v, hasAbbrevDotAt ('<' :: v) = false := fun v =>
    hasAbbrev_letters_lt [] rfl v
  have hph : placeholderChars ++ u
      = '<' :: 'L' :: 'U' :: 'E' :: '_' :: 'P' :: 'E' :: 'R' :: 'I' :: 'O' :: 'D' :: '>' :: u := by
    rfl
  rw [hph]
  simp only [hasBad, h1, hasAbbrev_LU,
    show (!isWordChar '<') = true from by decide,
    show (!isWordChar 'L') = false from by decide,
    show (!isWordChar 'U') = false from by decide,
    show (!isWordChar 'E') = false from by decide,
    show (!isWordChar '_') = false from by decide,
    show (!isWordChar 'P') = false from by decide,
    show (!isWordChar 'R') = false from by decide,
    show (!isWordChar 'I') = false from by decide,
    show (!isWordChar 'O') = false from by decide,
    show (!isWordChar 'D') = false from by decide,
    show (!isWordChar '>') = true from by decide,
    Bool.false_and, Bool.and_false, Bool.false_or, Bool.or_false]

/-- Scanning through an all-letter block followed by the placeholder. -/
lemma hasBad_letters_ph : ∀ (m : List Char), m.all Char.isAlpha = true →
    ∀ (bb : Bool) (u : List Char),
    hasBad bb (m ++ placeholderChars ++ u) = hasBad true u := by
  intro m
  induction m with
  | nil => intro _ bb u; exact hasBad_placeholder bb u
  | cons a m' ih =>
    intro hm bb u
    simp only [List.all_cons, Bool.and_eq_true] at hm
    have hshape : (a :: m') ++ placeholderChars ++ u
        = a :: (m' ++ (placeholderChars ++ u)) := by simp
    rw [hshape, hasBad]
    have hkill : hasAbbrevDotAt (a :: (m' ++ (placeholderChars ++ u))) = false := by
      have : a :: (m' ++ (placeholderChars ++ u))
          = (a :: m') ++ '<' :: ("LUE_PERIOD>".toList ++ u) := by
        show a :: (m' ++ (placeholderChars ++ u)) = a :: (m' ++ ('<' :: ("LUE_PERIOD>".toList ++ u)))
        rw [show placeholderChars ++ u = '<' :: ("LUE_PERIOD>".toList ++ u) from rfl]
      rw [this]
      exact hasAbbrev_letters_lt (a :: m') (by simp [hm.1, hm.2]) _
    rw [hkill]
    simp only [Bool.and_false, Bool.false_or]
    have := ih hm.2 (!isWordChar a) u
    simpa using this

lemma protectAbbrevGo_zero (bb : Bool) (s : List Char) :
    protectAbbrevGo 0 bb s = s := by
  cases s <;> rfl

/-- An abbreviation-plus-period read in the output of the abbreviation
pass was already present in its input: the pass only replaces periods by
the placeholder and never creates a new occurrence. -/
lemma ciPrefixDot_protectAbbrev : ∀ (fuel : Nat) (B : List Char),
    B.all Char.isAlpha = true → ∀ (bb : Bool) (s : List Char),
    ciPrefixDot B (protectAbbrevGo fuel bb s) = true → ciPrefixDot B s = true := by
  intro fuel
  induction fuel with
  | zero =>
    intro B hB bb s h
    rwa [protectAbbrevGo_zero] at h
  | succ fuel ih =>
    intro B hB bb s h
    cases s with
    | nil =>
      cases B with
      | nil => exact h
      | cons b bs => exact h
    | cons c t =>
      by_cases hbb : bb = true
      · rw [protectAbbrevGo, hbb, if_pos rfl] at h
        cases hm : matchAbbrevDot abbrevList (c :: t) with
        | some p =>
          obtain ⟨m, r⟩ := p
          rw [hm] at h
          have h2 : ciPrefixDot B (m ++ placeholderChars ++ protectAbbrevGo fuel true r) = true := h
          obtain ⟨a, hamem, hciTake⟩ := matchAbbrevDot_some abbrevList (c :: t) m r hm
          have hma : m.all Char.isAlpha = true :=
            ciTakeMatch_alpha a (c :: t) m ('.' :: r)
              (List.all_eq_true.mp abbrevList_alpha a hamem) hciTake
          have hshape : m ++ placeholderChars ++ protectAbbrevGo fuel true r
              = m ++ '<' :: ("LUE_PERIOD>".toList ++ protectAbbrevGo fuel true r) := by
            simp [placeholderChars]
          rw [hshape] at h2
          rw [ciPrefixDot_letters_lt B hB m hma] at h2
          exact absurd h2 (by simp)
        | none =>
          rw [hm] at h
          cases B with
          | nil => exact h
          | cons b bs =>
            simp only [List.all_cons, Bool.and_eq_true] at hB
            have h' : (ciEq b c && ciPrefixDot bs (protectAbbrevGo fuel (!isWordChar c) t)) = true := h
            rw [Bool.and_eq_true] at h'
            have := ih bs hB.2 (!isWordChar c) t h'.2
            show (ciEq b c && ciPrefixDot bs t) = true
            rw [h'.1, this]
            rfl
      · rw [protectAbbrevGo, if_neg hbb] at h
        cases B with
        | nil => exact h
        | cons b bs =>
          simp only [List.all_cons, Bool.and_eq_true] at hB
          have h' : (ciEq b c && ciPrefixDot bs (protectAbbrevGo fuel (!isWordChar c) t)) = true := h
          rw [Bool.and_eq_true] at h'
          have := ih bs hB.2 (!isWordChar c) t h'.2
          show (ciEq b c && ciPrefixDot bs t) = true
          rw [h'.1, this]
          rfl

/-- The abbreviation pass leaves no word-boundary
abbreviation-plus-period anywhere in its output. -/
lemma hasBad_protectAbbrev : ∀ (fuel : Nat) (s : List Char) (bb : Bool),
    s.length ≤ fuel → hasBad bb (protectAbbrevGo fuel bb s) = false := by
  intro fuel
  induction fuel with
  | zero =>
    intro s bb hlen
    have : s = [] := List.length_eq_zero.mp (Nat.le_zero.mp hlen)
    subst this
    rfl
  | succ fuel ih =>
    intro s bb hlen
    cases s with
    | nil => rfl
    | cons c t =>
      simp only [List.length_cons] at hlen
      by_cases hbb : bb = true
      · rw [protectAbbrevGo, hbb, if_pos rfl]
        cases hm : matchAbbrevDot abbrevList (c :: t) with
        | some p =>
          obtain ⟨m, r⟩ := p
          obtain ⟨a, hamem, hciTake⟩ := matchAbbrevDot_some abbrevList (c :: t) m r hm
          have hma : m.all Char.isAlpha = true :=
            ciTakeMatch_alpha a (c :: t) m ('.' :: r)
              (List.all_eq_true.mp abbrevList_alpha a hamem) hciTake
          obtain ⟨hsplit, _⟩ := ciTakeMatch_append a (c :: t) m ('.' :: r) hciTake
          have hrlen : r.length ≤ fuel := by
            have : (c :: t).length = m.length + ('.' :: r).length := by
              rw [hsplit, List.length_append]
            simp only [List.length_cons] at this
            omega
          show hasBad true (m ++ placeholderChars ++ protectAbbrevGo fuel true r) = false
          rw [hasBad_letters_ph m hma]
          exact ih r true hrlen
        | none =>
          rw [hasBad]
          have hnone := matchAbbrevDot_none abbrevList (c :: t) hm
          have habs : hasAbbrevDotAt (c :: protectAbbrevGo fuel (!isWordChar c) t) = false := by
            by_contra habs
            have habs' : hasAbbrevDotAt (c :: protectAbbrevGo fuel (!isWordChar c) t) = true := by
              revert habs
              cases hasAbbrevDotAt (c :: protectAbbrevGo fuel (!isWordChar c) t) <;> simp
            rw [hasAbbrevDotAt, List.any_eq_true] at habs'
            obtain ⟨a, hamem, hpref⟩ := habs'
            have hout : (c :: protectAbbrevGo fuel (!isWordChar c) t)
                = protectAbbrevGo (fuel + 1) bb (c :: t) := by
              rw [protectAbbrevGo, hbb, if_pos rfl, hm]
            rw [hout] at hpref
            have := ciPrefixDot_protectAbbrev (fuel + 1) a
              (List.all_eq_true.mp abbrevList_alpha a hamem) bb (c :: t) hpref
            rw [hnone a hamem] at this
            exact absurd this (by simp)
          rw [habs]
          simp only [Bool.and_false, Bool.false_or]
          exact ih t (!isWordChar c) (by omega)
      · rw [protectAbbrevGo, if_neg hbb]
        rw [hasBad]
        have hbbf : bb = false := by
          revert hbb; cases bb <;> simp
        rw [hbbf]
        simp only [Bool.false_and, Bool.false_or]
        exact ih t (!isWordChar c) (by omega)

lemma protectInitialsGo_zero (bb : Bool) (s : List Char) :
    protectInitialsGo 0 bb s = s := by
  cases s <;> rfl

lemma isUpper_isWordChar {c : Char} (h : c.isUpper = true) : isWordChar c = true := by
  rw [isWordChar, Char.isAlphanum, Char.isAlpha, h]
  rfl

lemma isUpper_isAlpha {c : Char} (h : c.isUpper = true) : c.isAlpha = true := by
  rw [Char.isAlpha, h]
  rfl

/-- An abbreviation-plus-period read in the output of the initials pass
was already present in its input. -/
lemma ciPrefixDot_protectInit : ∀ (fuel : Nat) (B : List Char),
    B.all Char.isAlpha = true → ∀ (bb : Bool) (s : List Char),
    ciPrefixDot B (protectInitialsGo fuel bb s) = true → ciPrefixDot B s = true := by
  intro fuel
  induction fuel with
  | zero =>
    intro B hB bb s h
    rwa [protectInitialsGo_zero] at h
  | succ fuel ih =>
    intro B hB bb s h
    have hdescend : ∀ (c : Char) (t : List Char),
        ciPrefixDot B (c :: protectInitialsGo fuel (!isWordChar c) t) = true →
        ciPrefixDot B (c :: t) = true := by
      intro c t hh
      cases B with
      | nil => exact hh
      | cons b bs =>
        simp only [List.all_cons, Bool.and_eq_true] at hB
        have h' : (ciEq b c && ciPrefixDot bs (protectInitialsGo fuel (!isWordChar c) t)) = true := hh
        rw [Bool.and_eq_true] at h'
        have := ih bs hB.2 (!isWordChar c) t h'.2
        show (ciEq b c && ciPrefixDot bs t) = true
        rw [h'.1, this]
        rfl
    cases s with
    | nil =>
      cases B with
      | nil => exact h
      | cons b bs => exact h
    | cons c t =>
      match t, h with
      | [], h => exact hdescend c [] h
      | [d], h => exact hdescend c [d] h
      | d :: w :: u, h =>
        by_cases hcond : (bb && c.isUpper && (d == '.') && isSpaceChar w
            && lookUpper u) = true
        · have h2 : ciPrefixDot B
              (c :: (placeholderChars ++ protectInitialsGo fuel true (w :: u))) = true := by
            have hout : protectInitialsGo (fuel + 1) bb (c :: d :: w :: u)
                = c :: (placeholderChars ++ protectInitialsGo fuel true (w :: u)) := by
              rw [protectInitialsGo]
              rw [if_pos hcond]
            rwa [hout] at h
          cases B with
          | nil => exact h2
          | cons b bs =>
            simp only [List.all_cons, Bool.and_eq_true] at hB
            have h' : (ciEq b c && ciPrefixDot bs
                (placeholderChars ++ protectInitialsGo fuel true (w :: u))) = true := h2
            rw [Bool.and_eq_true] at h'
            have hkill := ciPrefixDot_letters_lt bs hB.2 [] rfl
              ("LUE_PERIOD>".toList ++ protectInitialsGo fuel true (w :: u))
            rw [show ([] : List Char) ++ '<' ::
                ("LUE_PERIOD>".toList ++ protectInitialsGo fuel true (w :: u))
                = placeholderChars ++ protectInitialsGo fuel true (w :: u) from rfl] at hkill
            rw [hkill] at h'
            exact absurd h'.2 (by simp)
        · have h2 : ciPrefixDot B
              (c :: protectInitialsGo fuel (!isWordChar c) (d :: w :: u)) = true := by
            have hout : protectInitialsGo (fuel + 1) bb (c :: d :: w :: u)
                = c :: protectInitialsGo fuel (!isWordChar c) (d :: w :: u) := by
              rw [protectInitialsGo]
              rw [if_neg hcond]
            rwa [hout] at h
          exact hdescend c (d :: w :: u) h2

/-- The initials pass preserves the absence of word-boundary
abbreviation-plus-period occurrences. -/
lemma hasBad_protectInit : ∀ (fuel : Nat) (s : List Char) (bb : Bool),
    s.length ≤ fuel → hasBad bb s = false →
    hasBad bb (protectInitialsGo fuel bb s) = false := by
  intro fuel
  induction fuel with
  | zero =>
    intro s bb hlen hs
    rwa [protectInitialsGo_zero]
  | succ fuel ih =>
    intro s bb hlen hs
    cases s with
    | nil => rfl
    | cons c t =>
      simp only [List.length_cons] at hlen
      rw [hasBad, Bool.or_eq_false_iff] at hs
      obtain ⟨hs1, hs2⟩ := hs
      have helse : protectInitialsGo (fuel + 1) bb (c :: t)
          = c :: protectInitialsGo fuel (!isWordChar c) t →
          hasBad bb (protectInitialsGo (fuel + 1) bb (c :: t)) = false := by
        intro hout
        rw [hout, hasBad, Bool.or_eq_false_iff]
        constructor
        · by_cases hbb : bb = true
          · rw [hbb, Bool.true_and]
            by_contra habs
            have habs' : hasAbbrevDotAt (c :: protectInitialsGo fuel (!isWordChar c) t) = true := by
              revert habs
              cases hasAbbrevDotAt (c :: protectInitialsGo fuel (!isWordChar c) t) <;> simp
            rw [hasAbbrevDotAt, List.any_eq_true] at habs'
            obtain ⟨a, hamem, hpref⟩ := habs'
            rw [← hout] at hpref
            have htr := ciPrefixDot_protectInit (fuel + 1) a
              (List.all_eq_true.mp abbrevList_alpha a hamem) bb (c :: t) hpref
            rw [hbb, Bool.true_and, hasAbbrevDotAt, List.any_eq_false] at hs1
            exact (hs1 a hamem) htr
          · have hbbf : bb = false := by revert hbb; cases bb <;> simp
            rw [hbbf, Bool.false_and]
        · exact ih t (!isWordChar c) (by omega) hs2
      match t, hs2, hlen with
      | [], hs2, hlen => exact helse rfl
      | [d], hs2, hlen => exact helse rfl
      | d :: w :: u, hs2, hlen =>
        by_cases hcond : (bb && c.isUpper && (d == '.') && isSpaceChar w
            && lookUpper u) = true
        · have hparts := hcond
          simp only [Bool.and_eq_true] at hparts
          obtain ⟨⟨⟨⟨hpbb, hcup⟩, hpd⟩, hpw⟩, hpu⟩ := hparts
          have hd : d = '.' := by simpa using hpd
          have hout : protectInitialsGo (fuel + 1) bb (c :: d :: w :: u)
              = c :: (placeholderChars ++ protectInitialsGo fuel true (w :: u)) := by
            rw [protectInitialsGo, if_pos hcond]
          rw [hout, hasBad, Bool.or_eq_false_iff]
          constructor
          · have hkill : hasAbbrevDotAt
                (c :: (placeholderChars ++ protectInitialsGo fuel true (w :: u))) = false := by
              have hgen := hasAbbrev_letters_lt [c]
                (by simp [isUpper_isAlpha hcup])
                ("LUE_PERIOD>".toList ++ protectInitialsGo fuel true (w :: u))
              rw [show ([c] : List Char) ++ '<' ::
                  ("LUE_PERIOD>".toList ++ protectInitialsGo fuel true (w :: u))
                  = c :: (placeholderChars ++ protectInitialsGo fuel true (w :: u)) from rfl]
                at hgen
              exact hgen
            rw [hkill]
            simp
          · rw [hasBad_placeholder]
            subst hd
            rw [hasBad, Bool.or_eq_false_iff] at hs2
            have h3 : hasBad (!isWordChar '.') (w :: u) = false := hs2.2
            rw [show (!isWordChar '.') = true from by decide] at h3
            exact ih (w :: u) true (by simp at hlen ⊢; omega) h3
        · exact helse (by rw [protectInitialsGo, if_neg hcond])

/-- **C6**. `split_into_sentences` never splits immediately after a
recognized abbreviation's period: the text actually handed to the
`(?<=[.!?])\s+` splitter is the doubly protected paragraph, and (first
conjunct) in it no position carries a word-boundary abbreviation
immediately followed by a period — every abbreviation period was turned
into the placeholder and the passes create no new occurrence — so no
split point (always immediately after a remaining `[.!?]`) can lie right
after an abbreviation's period.  Second conjunct: the concrete scenario
"Mr. Smith went home. He was tired." yields exactly the two claimed
sentences, the first being "Mr. Smith went home.". -/
theorem C6_no_split_after_abbrev :
    (∀ p : List Char,
      hasBad true (protect_initials (protect_abbreviations p)) = false) ∧
    split_into_sentences "Mr. Smith went home. He was tired.".toList
      = ["Mr. Smith went home.".toList, "He was tired.".toList] := by
  constructor
  · intro p
    exact hasBad_protectInit (protect_abbreviations p).length
      (protect_abbreviations p) true le_rfl
      (hasBad_protectAbbrev p.length p true le_rfl)
  · decide

/-! ## `lue/audio.py`: `clean_tts_text` (C7)

Five `re.sub` passes: abbreviation periods (case-sensitive here, and
without `etc`/`eg`/`ie`), initials periods (replaced by a space), loose
punctuation runs, standalone dash before a quote, whitespace collapse and
strip. -/

/-- The abbreviation alternation of `ABBREVIATION_PATTERN` in
`lue/audio.py`, in source order (case-sensitive, no `etc`, `eg`, `ie`). -/
def abbrevListAudio : List (List Char) :=
  ["Mr".toList, "Mrs".toList, "Ms".toList, "Dr".toList, "Prof".toList,
   "Rev".toList, "Hon".toList, "Jr".toList, "Sr".toList, "Cpl".toList,
   "Sgt".toList, "Gen".toList, "Col".toList, "Capt".toList, "Lt".toList,
   "Pvt".toList, "vs".toList, "viz".toList, "Co".toList, "Inc".toList,
   "Ltd".toList, "Corp".toList, "St".toList, "Ave".toList, "Blvd".toList]

/-- Case-sensitive prefix consumption: the rest of `s` after the exact
prefix `a`, if `a` is a prefix. -/
def csTake : List Char → List Char → Option (List Char)
  | [], s => some s
  | _ :: _, [] => none
  | b :: bs, c :: cs => if b == c then csTake bs cs else none

/-- The alternation `(Mr|Mrs|...)\.`, case-sensitively: the first
abbreviation that is an exact prefix followed by a period; returns the
abbreviation and the rest after the period. -/
def matchAbbrevDotCS : List (List Char) → List Char → Option (List Char × List Char)
  | [], _ => none
  | a :: as, s =>
    match csTake a s with
    | some ('.' :: r) => some (a, r)
    | _ => matchAbbrevDotCS as s

/-- Scanner of the first `re.sub` of `clean_tts_text`: at a word boundary,
`abbrev.` is replaced by `abbrev` (the period is dropped). -/
def audioAbbrevGo : Nat → Bool → List Char → List Char
  | _, _, [] => []
  | 0, _, s => s
  | fuel + 1, bdry, c :: t =>
    if bdry then
      match matchAbbrevDotCS abbrevListAudio (c :: t) with
      | some (m, r) => m ++ audioAbbrevGo fuel true r
      | none => c :: audioAbbrevGo fuel (!isWordChar c) t
    else c :: audioAbbrevGo fuel (!isWordChar c) t

/-- Scanner of the second `re.sub` of `clean_tts_text`:
`\b([A-Z])\.(?=\s[A-Z])` becomes the capital plus a space. -/
def audioInitialsGo : Nat → Bool → List Char → List Char
  | _, _, [] => []
  | 0, _, s => s
  | fuel + 1, bdry, c :: t =>
    match t with
    | d :: w :: u =>
      if bdry && c.isUpper && d == '.' && isSpaceChar w && lookUpper u then
        c :: ' ' :: audioInitialsGo fuel true (w :: u)
      else c :: audioInitialsGo fuel (!isWordChar c) t
    | _ => c :: audioInitialsGo fuel (!isWordChar c) t

/-- The loose-punctuation class `[.,:;!?]`. -/
def isLoosePunct (c : Char) : Bool :=
  c == '.' || c == ',' || c == ':' || c == ';' || c == '!' || c == '?'

/-- The look-ahead `(?=\s|$)`. -/
def spaceOrEnd : List Char → Bool
  | [] => true
  | c :: _ => isSpaceChar c

/-- Scanner of `(?:^|\s)[.,:;!?]+(?=\s|$)` → `" "` at non-start
positions: a whitespace character followed by a maximal punctuation run
with whitespace-or-end after it is replaced by a single space (the
look-ahead is not consumed). -/
def loosePunctGo : Nat → List Char → List Char
  | _, [] => []
  | 0, s => s
  | fuel + 1, c :: t =>
    if isSpaceChar c then
      let run := t.takeWhile isLoosePunct
      let rest := t.drop run.length
      if run.isEmpty then c :: loosePunctGo fuel t
      else if spaceOrEnd rest then ' ' :: loosePunctGo fuel rest
      else c :: loosePunctGo fuel t
    else c :: loosePunctGo fuel t

/-- The third `re.sub` of `clean_tts_text`, including the `^` branch of
`(?:^|\s)` at position 0. -/
def loose_punct_sub (s : List Char) : List Char :=
  let run := s.takeWhile isLoosePunct
  let rest := s.drop run.length
  if !run.isEmpty && spaceOrEnd rest then ' ' :: loosePunctGo rest.length rest
  else loosePunctGo s.length s

/-- Scanner of `(?:^|\s)-(?=")` → `" "` at non-start positions. -/
def dashQuoteGo : Nat → List Char → List Char
  | _, [] => []
  | 0, s => s
  | fuel + 1, c :: t =>
    if isSpaceChar c then
      match t with
      | '-' :: '"' :: u => ' ' :: dashQuoteGo fuel ('"' :: u)
      | _ => c :: dashQuoteGo fuel t
    else c :: dashQuoteGo fuel t

/-- The fourth `re.sub` of `clean_tts_text`, including its `^` branch. -/
def dash_quote_sub (s : List Char) : List Char :=
  match s with
  | '-' :: '"' :: u => ' ' :: dashQuoteGo (u.length + 1) ('"' :: u)
  | _ => dashQuoteGo s.length s

/-- `re.sub(r'\s+', ' ', text)`: collapse whitespace runs to one space. -/
def collapseWsGo : Nat → List Char → List Char
  | _, [] => []
  | 0, s => s
  | fuel + 1, c :: t =>
    if isSpaceChar c then ' ' :: collapseWsGo fuel (t.dropWhile isSpaceChar)
    else c :: collapseWsGo fuel t

/-- `clean_tts_text`: the five passes in source order, ending with
`.strip()`. -/
def clean_tts_text (s : List Char) : List Char :=
  let s1 := audioAbbrevGo s.length true s
  let s2 := audioInitialsGo s1.length true s1
  let s3 := loose_punct_sub s2
  let s4 := dash_quote_sub s3
  pyStrip isSpaceChar (collapseWsGo s4.length s4)

/-- **C7**: the speech-level cleaner is not idempotent.  On
`"x Mr.. y"` the first pass eats `Mr.`'s period leaving `"x Mr. y"`, and
a second application eats the re-exposed abbreviation period giving
`"x Mr y"` — so `clean(clean(x)) ≠ clean(x)`, contradicting the spec's
idempotence requirement. -/
theorem C7_clean_tts_text_not_idempotent :
    clean_tts_text "x Mr.. y".toList = "x Mr. y".toList ∧
    clean_tts_text (clean_tts_text "x Mr.. y".toList) = "x Mr y".toList ∧
    clean_tts_text (clean_tts_text "x Mr.. y".toList)
      ≠ clean_tts_text "x Mr.. y".toList := by
  refine ⟨by decide, by decide, by decide⟩

/-! ## `lue/reader.py`: position navigation (C8), UI word filter (C9),
playback speed (C10)

Positions are Python integer triples `(chapter, paragraph, sentence)`,
modelled as `Int` so the transient negative values of the loops are
faithful.  List indexing out of range (a Python `IndexError`, reachable
only through books with empty chapters, which the claims' hypotheses
exclude) is modelled by a default value. -/

/-- Python list indexing on in-range non-negative indices; out of range
gives the default (Python would raise or index from the end). -/
def listAt {α : Type} (dflt : α) (l : List α) (i : Int) : α :=
  if h : 0 ≤ i ∧ i.toNat < l.length then l.get ⟨i.toNat, h.2⟩ else dflt

/-- A book: chapters, each a list of paragraph strings. -/
abbrev Book : Type := List (List (List Char))

/-- `len(self.chapters[c])`. -/
def paraCount (ch : Book) (c : Int) : Nat :=
  (listAt [] ch c).length

/-- `len(content_parser.split_into_sentences(self.chapters[c][p]))`. -/
def sentCount (ch : Book) (c p : Int) : Nat :=
  (split_into_sentences (listAt [] (listAt [] ch c) p)).length

/-- Navigation mode of `_advance_position` / `_rewind_position`. -/
inductive NavMode | sentence | paragraph
deriving DecidableEq

/-- The `while` loop of `Lue._advance_position`. -/
def advanceGo (ch : Book) (mode : NavMode) (wrap : Bool) :
    Int → Int → Int → Option (Int × Int × Int)
  | c, p, s =>
    if hc : c < (ch.length : Int) then
      if hp : p < (paraCount ch c : Int) then
        if s < (sentCount ch c p : Int) then
          some (c, p, if mode = NavMode.paragraph then 0 else s)
        else advanceGo ch mode wrap c (p + 1) 0
      else advanceGo ch mode wrap (c + 1) 0 0
    else if wrap then some (0, 0, 0) else none
  termination_by c p _ => (((ch.length : Int) - c).toNat, ((paraCount ch c : Int) - p).toNat)
  decreasing_by
  · apply Prod.Lex.right
    omega
  · apply Prod.Lex.left
    omega

/-- `Lue._advance_position` (`wrap` defaults to `True` in the source). -/
def _advance_position (ch : Book) (pos : Int × Int × Int) (mode : NavMode)
    (wrap : Bool) : Option (Int × Int × Int) :=
  let (c, p, s) := pos
  match mode with
  | NavMode.paragraph => advanceGo ch mode wrap c (p + 1) 0
  | NavMode.sentence => advanceGo ch mode wrap c p (s + 1)

/-- The loop-exit wrap of `Lue._rewind_position`: the last sentence of the
last paragraph of the last chapter. -/
def wrapEnd (ch : Book) : Int × Int × Int :=
  let c : Int := (ch.length : Int) - 1
  let p : Int := (paraCount ch c : Int) - 1
  (c, p, (sentCount ch c p : Int) - 1)

/-- The `while` loop of `Lue._rewind_position`. -/
def rewindGo (ch : Book) (mode : NavMode) : Int → Int → Int → Int × Int × Int
  | c, p, s =>
    if hc : 0 ≤ c then
      if hp : 0 ≤ p then
        if 0 ≤ s then (c, p, if mode = NavMode.paragraph then 0 else s)
        else
          if hp' : 0 ≤ p - 1 then
            rewindGo ch mode c (p - 1) ((sentCount ch c (p - 1) : Int) - 1)
          else
            if hc' : 0 ≤ c - 1 then
              rewindGo ch mode (c - 1) ((paraCount ch (c - 1) : Int) - 1)
                ((sentCount ch (c - 1) ((paraCount ch (c - 1) : Int) - 1) : Int) - 1)
            else wrapEnd ch
      else
        if hc' : 0 ≤ c - 1 then
          rewindGo ch mode (c - 1) ((paraCount ch (c - 1) : Int) - 1)
            ((sentCount ch (c - 1) ((paraCount ch (c - 1) : Int) - 1) : Int) - 1)
        else wrapEnd ch
    else wrapEnd ch
  termination_by c p _ => ((c + 1).toNat, (p + 1).toNat)
  decreasing_by
  · apply Prod.Lex.right
    omega
  · apply Prod.Lex.left
    omega
  · apply Prod.Lex.left
    omega

/-- `Lue._rewind_position`. -/
def _rewind_position (ch : Book) (pos : Int × Int × Int) (mode : NavMode) :
    Int × Int × Int :=
  let (c, p, s) := pos
  match mode with
  | NavMode.paragraph => rewindGo ch mode c (p - 1) 0
  | NavMode.sentence => rewindGo ch mode c p (s - 1)

lemma split_into_sentences_ne_nil (p : List Char) :
    split_into_sentences p ≠ [] := by
  unfold split_into_sentences
  dsimp only
  split
  · simp
  · next h => simpa [List.isEmpty_iff] using h

lemma sentCount_pos (ch : Book) (c p : Int) : 1 ≤ sentCount ch c p := by
  unfold sentCount
  have := List.length_pos.mpr (split_into_sentences_ne_nil
    (listAt [] (listAt [] ch c) p))
  omega

lemma paraCount_pos (ch : Book) (hch : ∀ chap ∈ ch, chap ≠ ([] : List (List Char)))
    (c : Int) (h0 : 0 ≤ c) (hl : c < (ch.length : Int)) : 1 ≤ paraCount ch c := by
  unfold paraCount listAt
  have hcl : c.toNat < ch.length := by omega
  rw [dif_pos ⟨h0, hcl⟩]
  have hm : ch.get ⟨c.toNat, hcl⟩ ∈ ch := List.get_mem ch c.toNat hcl
  have := hch _ hm
  have := List.length_pos.mpr this
  omega

/-- **C8**. For every book whose chapters are all non-empty and every
valid position with a valid predecessor (not the very first position),
advancing by one sentence undoes rewinding by one sentence:
`_advance_position (_rewind_position pos 'sentence') 'sentence' = pos`. -/
theorem C8_advance_rewind_inverse (ch : Book) (c p s : Int)
    (hch : ∀ chap ∈ ch, chap ≠ ([] : List (List Char)))
    (hc0 : 0 ≤ c) (hcl : c < (ch.length : Int))
    (hp0 : 0 ≤ p) (hpl : p < (paraCount ch c : Int))
    (hs0 : 0 ≤ s) (hsl : s < (sentCount ch c p : Int))
    (hpred : ¬(c = 0 ∧ p = 0 ∧ s = 0)) :
    _advance_position ch (_rewind_position ch (c, p, s) NavMode.sentence)
      NavMode.sentence true = some (c, p, s) := by
  simp only [_rewind_position, _advance_position]
  by_cases hs1 : 0 ≤ s - 1
  · -- previous sentence in the same paragraph
    have hrw : rewindGo ch NavMode.sentence c p (s - 1) = (c, p, s - 1) := by
      rw [rewindGo, dif_pos hc0, dif_pos hp0, if_pos hs1]
      simp
    rw [hrw]
    simp only
    have hnorm : s - 1 + 1 = s := by omega
    rw [hnorm, advanceGo, dif_pos hcl, dif_pos hpl, if_pos hsl]
    simp
  · have hs0' : s = 0 := by omega
    by_cases hp1 : 0 ≤ p - 1
    · -- last sentence of the previous paragraph
      have hcnt := sentCount_pos ch c (p - 1)
      have hrw : rewindGo ch NavMode.sentence c p (s - 1)
          = (c, p - 1, (sentCount ch c (p - 1) : Int) - 1) := by
        rw [rewindGo, dif_pos hc0, dif_pos hp0, if_neg (by omega), dif_pos hp1]
        rw [rewindGo, dif_pos hc0, dif_pos hp1, if_pos (by omega)]
        simp
      rw [hrw]
      simp only
      have hnorm : (sentCount ch c (p - 1) : Int) - 1 + 1
          = (sentCount ch c (p - 1) : Int) := by omega
      rw [hnorm, advanceGo, dif_pos hcl, dif_pos (by omega : p - 1 < (paraCount ch c : Int)),
        if_neg (by omega)]
      have hnorm2 : p - 1 + 1 = p := by omega
      rw [hnorm2, advanceGo, dif_pos hcl, dif_pos hpl,
        if_pos (by have := sentCount_pos ch c p; omega)]
      simp [hs0']
    · -- last sentence of the last paragraph of the previous chapter
      have hp0' : p = 0 := by omega
      have hc1 : 0 ≤ c - 1 := by
        rcases Int.lt_or_le 0 c with h | h
        · omega
        · exact absurd ⟨by omega, hp0', hs0'⟩ hpred
      have hpc := paraCount_pos ch hch (c - 1) hc1 (by omega)
      have hcnt := sentCount_pos ch (c - 1) ((paraCount ch (c - 1) : Int) - 1)
      have hrw : rewindGo ch NavMode.sentence c p (s - 1)
          = (c - 1, (paraCount ch (c - 1) : Int) - 1,
             (sentCount ch (c - 1) ((paraCount ch (c - 1) : Int) - 1) : Int) - 1) := by
        rw [rewindGo, dif_pos hc0, dif_pos hp0, if_neg (by omega), dif_neg (by omega),
          dif_pos hc1]
        rw [rewindGo, dif_pos hc1, dif_pos (by omega), if_pos (by omega)]
        simp
      rw [hrw]
      simp only
      have hnorm : (sentCount ch (c - 1) ((paraCount ch (c - 1) : Int) - 1) : Int) - 1 + 1
          = (sentCount ch (c - 1) ((paraCount ch (c - 1) : Int) - 1) : Int) := by omega
      rw [hnorm, advanceGo, dif_pos (by omega : c - 1 < (ch.length : Int)),
        dif_pos (by omega : (paraCount ch (c - 1) : Int) - 1 < (paraCount ch (c - 1) : Int)),
        if_neg (by omega)]
      have hnorm2 : (paraCount ch (c - 1) : Int) - 1 + 1 = (paraCount ch (c - 1) : Int) := by
        omega
      rw [hnorm2, advanceGo, dif_pos (by omega : c - 1 < (ch.length : Int)),
        dif_neg (by omega : ¬ (paraCount ch (c - 1) : Int) < (paraCount ch (c - 1) : Int))]
      have hnorm3 : c - 1 + 1 = c := by omega
      rw [hnorm3, advanceGo, dif_pos hcl,
        dif_pos (by have := paraCount_pos ch hch c hc0 hcl; omega),
        if_pos (by have := sentCount_pos ch c 0; omega)]
      simp [hp0', hs0']

/-- **C8** witness: a one-chapter book with one two-sentence paragraph,
rewinding from the second sentence and advancing back. -/
theorem C8_advance_rewind_inverse_witness :
    _advance_position [[("Hi. Yo.".toList)]]
        (_rewind_position [[("Hi. Yo.".toList)]] (0, 0, 1) NavMode.sentence)
        NavMode.sentence true = some (0, 0, 1) :=
  C8_advance_rewind_inverse [[("Hi. Yo.".toList)]] 0 0 1
    (by decide) (by decide) (by decide) (by decide) (by decide) (by decide)
    (by decide) (by decide)

/-- The word list the reader builds for display highlighting
(`_new_sentence_started` handler): whitespace tokens containing at least
one ASCII alphanumeric character (`re.search(r'[a-zA-Z0-9]', token)`),
kept verbatim. -/
def current_sentence_words (text : List Char) : List (List Char) :=
  (pySplit text).filter fun token => token.any Char.isAlphanum

lemma punct_not_alnum : ∀ c : Char, isPunct c = true → c.isAlphanum = false := by
  intro c hc
  rw [isPunct] at hc
  have hmem : c ∈ pyPunctuation := by
    have := (List.contains_iff_exists_mem_beq).mp hc
    obtain ⟨a, ha, hbeq⟩ := this
    have : c = a := by
      have := eq_of_beq hbeq
      exact this
    rw [this]
    exact ha
  have hall : pyPunctuation.all (fun c => !c.isAlphanum) = true := by decide
  have := List.all_eq_true.mp hall c hmem
  simpa using this

lemma pyStrip_eq_nil_iff (q : Char → Bool) (l : List Char) :
    pyStrip q l = [] ↔ ∀ c ∈ l, q c = true := by
  unfold pyStrip
  rw [List.reverse_eq_nil_iff, List.dropWhile_eq_nil_iff]
  constructor
  · intro h c hcl
    by_cases hdw : ∀ x ∈ l.dropWhile q, q x = true
    · -- all of l satisfies q: induction transferring from the dropWhile suffix
      clear h
      induction l with
      | nil => simp at hcl
      | cons a t ih =>
        by_cases hqa : q a = true
        · rw [List.dropWhile_cons_of_pos hqa] at hdw
          rcases List.mem_cons.mp hcl with rfl | hmem
          · exact hqa
          · exact ih hmem hdw
        · rw [List.dropWhile_cons_of_neg hqa] at hdw
          exact absurd (hdw a (List.mem_cons_self a t)) hqa
    · push_neg at hdw
      obtain ⟨x, hx, hqx⟩ := hdw
      have := h x (by simpa using hx)
      exact absurd this hqx
  · intro h c hc
    have hc' : c ∈ l.dropWhile q := by simpa using hc
    exact h c (List.dropWhile_subset q hc')

lemma strip_vs_any (tok : List Char)
    (htok : tok.all (fun c => c.isAlphanum || isPunct c) = true) :
    (pyStrip isPunct tok).isEmpty = !(tok.any Char.isAlphanum) := by
  rw [List.all_eq_true] at htok
  by_cases hany : tok.any Char.isAlphanum = true
  · rw [hany]
    rw [List.any_eq_true] at hany
    obtain ⟨c, hcm, hca⟩ := hany
    have : pyStrip isPunct tok ≠ [] := by
      rw [Ne, pyStrip_eq_nil_iff]
      intro hall
      have := hall c hcm
      rw [punct_not_alnum c this] at hca
      exact absurd hca (by simp)
    simpa [List.isEmpty_iff] using this
  · have hany' : tok.any Char.isAlphanum = false := by
      revert hany; cases tok.any Char.isAlphanum <;> simp
    rw [hany']
    have : pyStrip isPunct tok = [] := by
      rw [pyStrip_eq_nil_iff]
      intro c hcm
      have := htok c hcm
      rw [Bool.or_eq_true] at this
      rcases this with h | h
      · exfalso
        have : tok.any Char.isAlphanum = true := List.any_eq_true.mpr ⟨c, hcm, h⟩
        rw [this] at hany'
        exact absurd hany' (by simp)
      · exact h
    simp [this]

lemma filterMap_strip_eq (toks : List (List Char))
    (h : ∀ tok ∈ toks, tok.all (fun c => c.isAlphanum || isPunct c) = true) :
    (toks.filterMap fun token =>
      let cleaned := pyStrip isPunct token
      if cleaned.isEmpty then none else some cleaned)
      = (toks.filter fun token => token.any Char.isAlphanum).map (pyStrip isPunct) := by
  induction toks with
  | nil => rfl
  | cons tok toks ih =>
    have htok := h tok (List.mem_cons_self tok toks)
    have hrest := fun t ht => h t (List.mem_cons_of_mem tok ht)
    rw [List.filterMap_cons, List.filter_cons]
    by_cases hany : tok.any Char.isAlphanum = true
    · have hne : (pyStrip isPunct tok).isEmpty = false := by
        rw [strip_vs_any tok htok, hany]
        rfl
      simp only [hne, hany, if_true, if_false, Bool.false_eq_true, ite_false,
        List.map_cons]
      rw [ih hrest]
    · have hany' : tok.any Char.isAlphanum = false := by
        revert hany; cases tok.any Char.isAlphanum <;> simp
      have hemp : (pyStrip isPunct tok).isEmpty = true := by
        rw [strip_vs_any tok htok, hany']
        rfl
      simp only [hemp, hany', if_true, Bool.false_eq_true, ite_false]
      exact ih hrest

/-- **C9** (amended). On sentences whose whitespace tokens consist of
ASCII alphanumeric and ASCII punctuation characters only, the timing
layer's `_get_highlightable_words` selects exactly the tokens the reader
keeps for display highlighting, in order — the timing list is the UI list
with surrounding punctuation stripped — so both lists have the same
length.  (On other characters the two filters genuinely differ, see the
counterexample.) -/
theorem C9_filters_agree (text : List Char)
    (h : ∀ tok ∈ pySplit text, tok.all (fun c => c.isAlphanum || isPunct c) = true) :
    get_highlightable_words text
      = (current_sentence_words text).map (pyStrip isPunct) ∧
    (get_highlightable_words text).length = (current_sentence_words text).length := by
  have hmain : get_highlightable_words text
      = (current_sentence_words text).map (pyStrip isPunct) := by
    unfold get_highlightable_words current_sentence_words
    exact filterMap_strip_eq (pySplit text) h
  exact ⟨hmain, by rw [hmain, List.length_map]⟩

/-- **C9** witness: on plain ASCII text both layers pick the same two
tokens. -/
theorem C9_filters_agree_witness :
    get_highlightable_words "Hello, world!".toList
      = (current_sentence_words "Hello, world!".toList).map (pyStrip isPunct) ∧
    (get_highlightable_words "Hello, world!".toList).length
      = (current_sentence_words "Hello, world!".toList).length :=
  C9_filters_agree "Hello, world!".toList (by decide)

/-- **C9** counterexample to the claim as stated: the em dash token `—`
survives `strip(string.punctuation)` (it is not ASCII punctuation), so
the timing layer counts it, while the reader's `[a-zA-Z0-9]` filter drops
it — the two layers classify it differently, and for the sentence `"—"`
the lists have lengths 1 and 0. -/
theorem C9_em_dash_disagree :
    get_highlightable_words "—".toList = ["—".toList] ∧
    current_sentence_words "—".toList = [] := by
  constructor
  · decide
  · decide

/-! ## Playback speed (C10) -/

/-- The `speed_levels` list of `_increase_speed` / `_decrease_speed`. -/
def speed_levels : List ℚ := [1, 5/4, 3/2, 7/4, 2, 5/2, 3]

/-- The index-finding loop: the first level within 0.01 of the current
speed, defaulting to 0 (`current_index = 0` before the loop). -/
def findIdxGo : List ℚ → Nat → ℚ → Nat
  | [], _, _ => 0
  | l :: ls, i, sp => if |l - sp| < 1/100 then i else findIdxGo ls (i + 1) sp

/-- `Lue._increase_speed`: step to the next level unless already at the
top; returns whether the speed changed and the new speed. -/
def _increase_speed (sp : ℚ) : Bool × ℚ :=
  let i := findIdxGo speed_levels 0 sp
  if i < speed_levels.length - 1 then (true, speed_levels.getD (i + 1) 0)
  else (false, sp)

/-- `Lue._decrease_speed`: step to the previous level unless already at
1.0x. -/
def _decrease_speed (sp : ℚ) : Bool × ℚ :=
  let i := findIdxGo speed_levels 0 sp
  if 0 < i then (true, speed_levels.getD (i - 1) 0)
  else (false, sp)

/-- A user action on the playback speed. -/
inductive SpeedOp | inc | dec
deriving DecidableEq

/-- The speed after a sequence of increase/decrease presses. -/
def apply_speed_ops : List SpeedOp → ℚ → ℚ
  | [], sp => sp
  | op :: ops, sp =>
    apply_speed_ops ops
      (match op with
       | SpeedOp.inc => (_increase_speed sp).2
       | SpeedOp.dec => (_decrease_speed sp).2)

lemma speed_step_mem (sp : ℚ) (hsp : sp ∈ speed_levels) :
    (_increase_speed sp).2 ∈ speed_levels ∧ (_decrease_speed sp).2 ∈ speed_levels := by
  fin_cases hsp <;>
    exact ⟨by norm_num [_increase_speed, findIdxGo, speed_levels, abs_lt],
           by norm_num [_decrease_speed, findIdxGo, speed_levels, abs_lt]⟩

/-- **C10**. Starting from the default speed 1.0, any sequence of
`_increase_speed` / `_decrease_speed` calls keeps the playback speed in
{1.0, 1.25, 1.5, 1.75, 2.0, 2.5, 3.0}; at the top level 3.0 increase
returns `False` and leaves the speed unchanged, and at the bottom level
1.0 decrease returns `False` and leaves the speed unchanged. -/
theorem C10_speed_invariant :
    (∀ ops : List SpeedOp, apply_speed_ops ops 1 ∈ speed_levels) ∧
    _increase_speed 3 = (false, 3) ∧
    _decrease_speed 1 = (false, 1) := by
  refine ⟨?_, ?_, ?_⟩
  · have hstep : ∀ sp ∈ speed_levels, ∀ ops : List SpeedOp,
        apply_speed_ops ops sp ∈ speed_levels := by
      intro sp hsp ops
      induction ops generalizing sp with
      | nil => exact hsp
      | cons op ops ih =>
        rw [apply_speed_ops.eq_def]
        match op with
        | SpeedOp.inc => exact ih _ (speed_step_mem sp hsp).1
        | SpeedOp.dec => exact ih _ (speed_step_mem sp hsp).2
    intro ops
    exact hstep 1 (by norm_num [speed_levels]) ops
  · norm_num [_increase_speed, findIdxGo, speed_levels, abs_lt]
  · norm_num [_decrease_speed, findIdxGo, speed_levels, abs_lt]

end Lue
